import Mathlib

/-!
Verification of the Email-Automation contact-discovery pipeline.

The definitions below are a shallow embedding of `cleaner.py` and
`scraper.py`: pure Python functions become Lean functions over
`List Char` / `String`, the regular expressions of the scraper become
explicit executable matchers, and the network-facing functions become
functions over an explicit environment recording which network actions
would be performed.
-/

namespace EmailAutomation

/-! ## Python character classes and basic string helpers -/

/-- Whitespace characters recognized by Python's `str` routines and by the
regular-expression class for whitespace on text patterns. -/
def isPyWs (c : Char) : Bool :=
  c.toNat = 0x09 || c.toNat = 0x0a || c.toNat = 0x0b || c.toNat = 0x0c ||
  c.toNat = 0x0d || c.toNat = 0x1c || c.toNat = 0x1d || c.toNat = 0x1e ||
  c.toNat = 0x1f || c.toNat = 0x20 || c.toNat = 0x85 || c.toNat = 0xa0 ||
  c.toNat = 0x1680 || (0x2000 ≤ c.toNat && c.toNat ≤ 0x200a) ||
  c.toNat = 0x2028 || c.toNat = 0x2029 || c.toNat = 0x202f ||
  c.toNat = 0x205f || c.toNat = 0x3000

/-- ASCII letter, the class `[a-zA-Z]` (codes 0x41-0x5a and 0x61-0x7a). -/
def isAsciiAlpha (c : Char) : Bool :=
  (0x41 ≤ c.toNat && c.toNat ≤ 0x5a) || (0x61 ≤ c.toNat && c.toNat ≤ 0x7a)

/-- ASCII digit, the class `[0-9]` (codes 0x30-0x39). -/
def isAsciiDigit (c : Char) : Bool :=
  0x30 ≤ c.toNat && c.toNat ≤ 0x39

/-- Python `s.lower()` restricted to the ASCII case mapping. -/
def pyLower (s : String) : List Char := s.data.map Char.toLower

/-- Python `s.strip()`: remove leading and trailing whitespace. -/
def pyStrip (s : String) : List Char :=
  ((s.data.dropWhile isPyWs).reverse.dropWhile isPyWs).reverse

/-- Whether the first list is a prefix of the second (executable). -/
def isPrefixL : List Char → List Char → Bool
  | [], _ => true
  | _ :: _, [] => false
  | a :: as, b :: bs => a = b && isPrefixL as bs

/-- Python's substring test `needle in hay` on strings, as a scan over
character lists. -/
def containsL (needle : List Char) : List Char → Bool
  | [] => needle.isEmpty
  | c :: cs => isPrefixL needle (c :: cs) || containsL needle cs

/-! ## cleaner.py -/

/-- `PRIORITY.get(source, 99)` from `cleaner.py` (`priority_value`). -/
def priority_value (source : String) : Nat :=
  if source = "bio" then 1
  else if source = "site" then 2
  else if source = "site_deep" then 3
  else if source = "guess_personal" then 4
  else 99

/-- One CSV row of the scraper output, as consumed by `cleaner.py`.
All fields are strings, exactly as `csv.DictReader` delivers them. -/
structure Row where
  username : String
  full_name : String
  external_url : String
  email : String
  source : String
  mx : String
  smtp_status : String
  smtp_note : String
deriving DecidableEq, Repr

/-- `is_valid_email` from `cleaner.py`, test by test in source order:
falsy email, `"example.com" in email.lower()`, all-whitespace email,
missing `@`. -/
def is_valid_email (email : String) : Bool :=
  if email = "" then false
  else if containsL "example.com".data (pyLower email) then false
  else if pyStrip email = [] then false
  else if ¬ containsL "@".data email.data then false
  else true

/-- `is_error_row` from `cleaner.py`. -/
def is_error_row (row : Row) : Bool :=
  row.source = "error" || containsL "profile_error".data row.smtp_note.data

/-- `clean_rows` from `cleaner.py`: keep the rows that are neither error
rows nor rows with an invalid email, preserving input order. -/
def clean_rows (rows : List Row) : List Row :=
  rows.filter (fun r => !is_error_row r && is_valid_email r.email)

/-- One step of the `best` dict update in `select_best`: Python dicts keep
the insertion position of a key when its value is replaced, so the state is
an association list updated in place and extended at the end. -/
def updateAssoc : List (String × Row) → Row → List (String × Row)
  | [], row => [(row.username, row)]
  | (u, b) :: rest, row =>
    if u = row.username then
      (if priority_value row.source < priority_value b.source then (u, row)
       else (u, b)) :: rest
    else (u, b) :: updateAssoc rest row

/-- The `best` dictionary built by `select_best` after iterating all rows. -/
def best_assoc (rows : List Row) : List (String × Row) :=
  rows.foldl updateAssoc []

/-- `select_best` from `cleaner.py`: `list(best.values())`. -/
def select_best (rows : List Row) : List Row :=
  (best_assoc rows).map Prod.snd

/-- The spec's per-handle replacement rule, stated from the spec's words:
the first record seen becomes the current best; a later record replaces it
only if its tier has strictly lower rank. -/
def spec_step (best : Option Row) (row : Row) : Option Row :=
  match best with
  | none => some row
  | some b =>
    if priority_value row.source < priority_value b.source then some row
    else some b

/-- The spec's selected record for one handle: fold the replacement rule
over the records of that handle in input order. -/
def spec_best_for (u : String) (rows : List Row) : Option Row :=
  (rows.filter (fun r => r.username = u)).foldl spec_step none

/-- `em.split("@")[-1]`: the part of a string after its last `@`
(the whole string when there is no `@`). -/
def afterLastAt (l : List Char) : List Char :=
  (l.reverse.takeWhile (fun c => c ≠ '@')).reverse

/-! ## Lemmas about the reducer state -/

/-- Lookup in the association list modelling the `best` dict. -/
def lookupA (u : String) : List (String × Row) → Option Row
  | [] => none
  | (k, b) :: rest => if k = u then some b else lookupA u rest

theorem lookup_updateAssoc (acc : List (String × Row)) (row : Row) (u : String) :
    lookupA u (updateAssoc acc row) =
      if u = row.username then spec_step (lookupA u acc) row else lookupA u acc := by
  induction acc with
  | nil =>
    by_cases h : u = row.username
    · simp [updateAssoc, lookupA, h, spec_step]
    · have h' : ¬ row.username = u := fun hh => h hh.symm
      simp [updateAssoc, lookupA, h, h', spec_step]
  | cons q rest ih =>
    obtain ⟨k, b⟩ := q
    by_cases hk : k = row.username
    · by_cases hu : u = row.username
      · have hku : k = u := hk.trans hu.symm
        by_cases hpv : priority_value row.source < priority_value b.source <;>
          simp [updateAssoc, lookupA, spec_step, hk, hku, hu, hpv]
      · have hku : ¬ k = u := fun hh => hu (hh.symm.trans hk)
        have hru : ¬ row.username = u := fun hh => hu hh.symm
        by_cases hpv : priority_value row.source < priority_value b.source <;>
          simp [updateAssoc, lookupA, spec_step, hk, hku, hu, hru, hpv]
    · by_cases hku : k = u
      · have hu : ¬ u = row.username := fun hh => hk (hku.trans hh)
        simp [updateAssoc, lookupA, hk, hku, hu]
      · simp [updateAssoc, lookupA, hk, hku, ih]

theorem lookup_foldl_updateAssoc (rows : List Row) :
    ∀ (acc : List (String × Row)) (u : String),
      lookupA u (rows.foldl updateAssoc acc) =
        (rows.filter (fun r => r.username = u)).foldl spec_step (lookupA u acc) := by
  induction rows with
  | nil => intro acc u; rfl
  | cons r rows ih =>
    intro acc u
    rw [List.foldl_cons, ih, lookup_updateAssoc]
    by_cases h : r.username = u
    · rw [if_pos h.symm]
      simp [List.filter_cons, h]
    · rw [if_neg (fun hh => h hh.symm)]
      simp [List.filter_cons, h]

theorem mem_updateAssoc {p : String × Row} {acc : List (String × Row)} {row : Row}
    (h : p ∈ updateAssoc acc row) : p ∈ acc ∨ p.2 = row := by
  induction acc with
  | nil =>
    simp only [updateAssoc, List.mem_singleton] at h
    right; rw [h]
  | cons q rest ih =>
    obtain ⟨k, b⟩ := q
    by_cases hk : k = row.username
    · simp only [updateAssoc, if_pos hk, List.mem_cons] at h
      rcases h with h | h
      · by_cases hpv : priority_value row.source < priority_value b.source
        · rw [if_pos hpv] at h; right; rw [h]
        · rw [if_neg hpv] at h; left; rw [h]; exact List.mem_cons_self _ _
      · left; exact List.mem_cons_of_mem _ h
    · simp only [updateAssoc, if_neg hk, List.mem_cons] at h
      rcases h with h | h
      · left; rw [h]; exact List.mem_cons_self _ _
      · rcases ih h with h' | h'
        · left; exact List.mem_cons_of_mem _ h'
        · right; exact h'

theorem snd_mem_foldl_updateAssoc (rows : List Row) :
    ∀ (acc : List (String × Row)) (p : String × Row),
      p ∈ rows.foldl updateAssoc acc → p ∈ acc ∨ p.2 ∈ rows := by
  induction rows with
  | nil => intro acc p h; exact Or.inl h
  | cons r rows ih =>
    intro acc p h
    rcases ih (updateAssoc acc r) p h with h' | h'
    · rcases mem_updateAssoc h' with h'' | h''
      · exact Or.inl h''
      · exact Or.inr (h'' ▸ List.mem_cons_self _ _)
    · exact Or.inr (List.mem_cons_of_mem _ h')

theorem keys_updateAssoc (acc : List (String × Row)) (row : Row) :
    (updateAssoc acc row).map Prod.fst =
      if row.username ∈ acc.map Prod.fst then acc.map Prod.fst
      else acc.map Prod.fst ++ [row.username] := by
  induction acc with
  | nil => simp [updateAssoc]
  | cons q rest ih =>
    obtain ⟨k, b⟩ := q
    by_cases hk : k = row.username
    · subst hk
      by_cases hpv : priority_value row.source < priority_value b.source <;>
        simp [updateAssoc, hpv, List.mem_cons]
    · simp only [updateAssoc, if_neg hk, List.map_cons, ih]
      have hne : ¬ row.username = k := fun hh => hk hh.symm
      by_cases hmem : row.username ∈ rest.map Prod.fst <;>
        simp [List.mem_cons, hne, hmem]

theorem vals_username_updateAssoc {acc : List (String × Row)} {row : Row}
    (h : ∀ p ∈ acc, (Prod.snd p).username = p.1) :
    ∀ p ∈ updateAssoc acc row, (Prod.snd p).username = p.1 := by
  induction acc with
  | nil =>
    intro p hp
    simp only [updateAssoc, List.mem_singleton] at hp
    rw [hp]
  | cons q rest ih =>
    obtain ⟨k, b⟩ := q
    intro p hp
    by_cases hk : k = row.username
    · simp only [updateAssoc, if_pos hk, List.mem_cons] at hp
      rcases hp with hp | hp
      · by_cases hpv : priority_value row.source < priority_value b.source
        · rw [if_pos hpv] at hp; rw [hp]; exact hk.symm
        · rw [if_neg hpv] at hp; rw [hp]
          exact h _ (List.mem_cons_self _ _)
      · exact h _ (List.mem_cons_of_mem _ hp)
    · simp only [updateAssoc, if_neg hk, List.mem_cons] at hp
      rcases hp with hp | hp
      · rw [hp]; exact h _ (List.mem_cons_self _ _)
      · exact ih (fun q hq => h q (List.mem_cons_of_mem _ hq)) p hp

theorem nodup_keys_updateAssoc {acc : List (String × Row)} {row : Row}
    (h : (acc.map Prod.fst).Nodup) :
    ((updateAssoc acc row).map Prod.fst).Nodup := by
  rw [keys_updateAssoc]
  split
  · exact h
  · next hmem =>
    rw [List.nodup_append]
    exact ⟨h, List.nodup_singleton _,
      by simpa [List.disjoint_singleton] using hmem⟩

theorem best_assoc_invariant (rows : List Row) :
    (∀ p ∈ best_assoc rows, (Prod.snd p).username = p.1) ∧
      ((best_assoc rows).map Prod.fst).Nodup := by
  have main : ∀ (l : List Row) (acc : List (String × Row)),
      (∀ p ∈ acc, (Prod.snd p).username = p.1) → (acc.map Prod.fst).Nodup →
      (∀ p ∈ l.foldl updateAssoc acc, (Prod.snd p).username = p.1) ∧
        ((l.foldl updateAssoc acc).map Prod.fst).Nodup := by
    intro l
    induction l with
    | nil => intro acc h1 h2; exact ⟨h1, h2⟩
    | cons r l ih =>
      intro acc h1 h2
      exact ih _ (vals_username_updateAssoc h1) (nodup_keys_updateAssoc h2)
  exact main rows [] (by simp) (by simp)

theorem find?_values {acc : List (String × Row)}
    (h : ∀ p ∈ acc, (Prod.snd p).username = p.1) (u : String) :
    (acc.map Prod.snd).find? (fun r => r.username == u) = lookupA u acc := by
  induction acc with
  | nil => rfl
  | cons q rest ih =>
    obtain ⟨k, b⟩ := q
    have hb : b.username = k := h _ (List.mem_cons_self _ _)
    by_cases hu : k = u
    · simp [List.find?, lookupA, hb, hu]
    · have h1 : (b.username == u) = false := by
        rw [hb]; exact beq_eq_false_iff_ne.mpr hu
      simp only [List.map_cons, List.find?, h1, lookupA, if_neg hu]
      exact ih (fun p hp => h p (List.mem_cons_of_mem _ hp))

theorem select_best_find? (rows : List Row) (u : String) :
    (select_best rows).find? (fun r => r.username == u) = spec_best_for u rows := by
  rw [select_best, find?_values (best_assoc_invariant rows).1 u, best_assoc,
    lookup_foldl_updateAssoc, spec_best_for]
  rfl

theorem select_best_subset {rows : List Row} {r : Row}
    (h : r ∈ select_best rows) : r ∈ rows := by
  rw [select_best] at h
  obtain ⟨p, hp, hpr⟩ := List.mem_map.mp h
  rcases snd_mem_foldl_updateAssoc rows [] p hp with h' | h'
  · exact absurd h' (List.not_mem_nil p)
  · rw [← hpr]; exact h'

theorem foldl_spec_step_some (l : List Row) :
    ∀ b : Row, ∃ c, l.foldl spec_step (some b) = some c := by
  induction l with
  | nil => intro b; exact ⟨b, rfl⟩
  | cons r l ih =>
    intro b
    simp only [List.foldl_cons, spec_step]
    split <;> exact ih _

theorem spec_best_for_isSome {u : String} {rows : List Row} :
    spec_best_for u rows ≠ none ↔ ∃ r ∈ rows, r.username = u := by
  constructor
  · intro hne
    by_contra hex
    push_neg at hex
    have hf : rows.filter (fun r => decide (r.username = u)) = [] :=
      List.filter_eq_nil_iff.mpr (by intro a ha; simpa using hex a ha)
    rw [spec_best_for, hf] at hne
    exact hne rfl
  · rintro ⟨r, hr, hu⟩
    rw [spec_best_for]
    have hmem : r ∈ rows.filter (fun r => decide (r.username = u)) :=
      List.mem_filter.mpr ⟨hr, by simp [hu]⟩
    rcases hsplit : rows.filter (fun r => decide (r.username = u)) with _ | ⟨a, l⟩
    · rw [hsplit] at hmem; exact absurd hmem (List.not_mem_nil r)
    · rw [hsplit, List.foldl_cons]
      have hstep : spec_step none a = some a := rfl
      rw [hstep]
      obtain ⟨c, hc⟩ := foldl_spec_step_some l a
      rw [hc]
      exact fun hcontr => Option.noConfusion hcontr

end EmailAutomation

namespace EmailAutomation

/-! ## Characterizing the validity filter -/

theorem pyStrip_eq_nil {e : String} (h : pyStrip e = []) :
    ∀ c ∈ e.data, isPyWs c = true := by
  intro c hc
  have h1 : (e.data.dropWhile isPyWs).reverse.dropWhile isPyWs = [] := by
    rwa [pyStrip, List.reverse_eq_nil_iff] at h
  have h2 : ∀ a ∈ (e.data.dropWhile isPyWs).reverse, isPyWs a = true :=
    List.dropWhile_eq_nil_iff.mp h1
  have h3 : ∀ a ∈ e.data.dropWhile isPyWs, isPyWs a = true :=
    fun a ha => h2 a (List.mem_reverse.mpr ha)
  have hd : e.data = e.data.takeWhile isPyWs ++ e.data.dropWhile isPyWs :=
    (List.takeWhile_append_dropWhile isPyWs e.data).symm
  rw [hd] at hc
  rcases List.mem_append.mp hc with h4 | h4
  · exact List.mem_takeWhile_imp h4
  · exact h3 c h4

theorem containsL_singleton_iff (c : Char) (l : List Char) :
    containsL [c] l = true ↔ c ∈ l := by
  induction l with
  | nil => simp [containsL, List.isEmpty]
  | cons d ds ih =>
    rw [containsL, Bool.or_eq_true, ih]
    constructor
    · rintro (h | h)
      · have hcd : c = d := by simpa [isPrefixL] using h
        rw [hcd]; exact List.mem_cons_self _ _
      · exact List.mem_cons_of_mem _ h
    · intro h
      rcases List.mem_cons.mp h with h | h
      · left; simp [isPrefixL, h]
      · right; exact h

theorem is_valid_email_eq (e : String) :
    is_valid_email e =
      (containsL "@".data e.data && !containsL "example.com".data (pyLower e)) := by
  rw [is_valid_email]
  by_cases he : e = ""
  · subst he; rfl
  · rw [if_neg he]
    by_cases hex : containsL "example.com".data (pyLower e) = true
    · simp [hex]
    · have hex' : containsL "example.com".data (pyLower e) = false :=
        Bool.eq_false_iff.mpr hex
      rw [if_neg (by simp [hex'])]
      by_cases hstrip : pyStrip e = []
      · rw [if_pos hstrip]
        have hat : containsL "@".data e.data = false := by
          rw [Bool.eq_false_iff]
          intro hcon
          have hmem : '@' ∈ e.data := (containsL_singleton_iff '@' e.data).mp hcon
          have := pyStrip_eq_nil hstrip '@' hmem
          simp [isPyWs] at this
        simp [hat, hex']
      · rw [if_neg hstrip]
        by_cases hat : containsL "@".data e.data = true
        · simp [hat, hex']
        · simp [Bool.eq_false_iff.mpr hat, hex']

/-- The amended spec filter: a row is dropped iff it is an error placeholder
or its email is empty, lacks an `@`, or contains `example.com` anywhere
(case-insensitively). -/
def amendedDrop (r : Row) : Bool :=
  is_error_row r || r.email = "" || !containsL "@".data r.email.data ||
  containsL "example.com".data (pyLower r.email)

/-! ## Claim C1: the reducer follows the per-handle replacement rule -/

/-- A `site`-tier record for handle `x`. -/
def rowSiteX : Row := ⟨"x", "", "", "s1@d.com", "site", "", "", ""⟩

/-- A `bio`-tier record for handle `x`. -/
def rowBioX : Row := ⟨"x", "", "", "b1@d.com", "bio", "", "", ""⟩

/-- A `site_deep`-tier record for handle `x`. -/
def rowDeepX : Row := ⟨"x", "", "", "s2@d.com", "site_deep", "", "", ""⟩

/-- First of two `bio`-tier records for the same handle. -/
def rowBioFirst : Row := ⟨"x", "", "", "first@d.com", "bio", "", "", ""⟩

/-- Second of two `bio`-tier records for the same handle. -/
def rowBioSecond : Row := ⟨"x", "", "", "second@d.com", "bio", "", "", ""⟩

/-- C1: for every record list, the reducer's per-handle selection equals the
spec's replacement rule (first record seen is the running best, replaced only
on strictly lower rank in the priority table, with ranks Bio=1, Site=2,
SiteDeep=3, GuessPersonal=4 and 99 for unrecognized tiers); for tiers
`[Site, Bio, SiteDeep]` in input order the output has tier Bio, and of two
Bio-tier records for the same handle the first in input order is kept. -/
theorem reducer_selection_rule :
    (∀ (rows : List Row) (u : String),
        (select_best rows).find? (fun r => r.username == u) = spec_best_for u rows)
    ∧ (priority_value "bio" = 1 ∧ priority_value "site" = 2 ∧
        priority_value "site_deep" = 3 ∧ priority_value "guess_personal" = 4)
    ∧ (∀ s : String, s ≠ "bio" → s ≠ "site" → s ≠ "site_deep" →
        s ≠ "guess_personal" → priority_value s = 99)
    ∧ select_best [rowSiteX, rowBioX, rowDeepX] = [rowBioX]
    ∧ select_best [rowBioFirst, rowBioSecond] = [rowBioFirst] := by
  refine ⟨select_best_find?, by decide, ?_, by decide, by decide⟩
  intro s h1 h2 h3 h4
  simp [priority_value, h1, h2, h3, h4]

/-- Witness for C1: an unrecognized tier ranks 99. -/
theorem reducer_selection_rule_witness : priority_value "error" = 99 :=
  reducer_selection_rule.2.2.1 "error" (by decide) (by decide) (by decide)
    (by decide)

/-! ## Claim C3: one record per handle, no invented or dropped handles -/

/-- C3: the reducer output has no duplicate handles, every output record
comes from the filtered input (hence from the raw input), and a handle is in
the output iff some record for it survived the filter stage. -/
theorem reducer_output_handles :
    ∀ rows : List Row,
      ((select_best (clean_rows rows)).map Row.username).Nodup
      ∧ (∀ r ∈ select_best (clean_rows rows), r ∈ clean_rows rows ∧ r ∈ rows)
      ∧ (∀ u : String,
          (∃ r ∈ select_best (clean_rows rows), r.username = u) ↔
            (∃ r ∈ clean_rows rows, r.username = u)) := by
  intro rows
  refine ⟨?_, ?_, ?_⟩
  · have hinv := best_assoc_invariant (clean_rows rows)
    have hmap : (select_best (clean_rows rows)).map Row.username
        = (best_assoc (clean_rows rows)).map Prod.fst := by
      rw [select_best, List.map_map]
      exact List.map_congr_left (fun p hp => hinv.1 p hp)
    rw [hmap]; exact hinv.2
  · intro r hr
    have h1 : r ∈ clean_rows rows := select_best_subset hr
    have h2 := h1
    rw [clean_rows] at h2
    exact ⟨h1, (List.mem_filter.mp h2).1⟩
  · intro u
    constructor
    · rintro ⟨r, hr, hu⟩
      exact ⟨r, select_best_subset hr, hu⟩
    · rintro ⟨r, hr, hu⟩
      have hne : spec_best_for u (clean_rows rows) ≠ none :=
        spec_best_for_isSome.mpr ⟨r, hr, hu⟩
      rw [← select_best_find?] at hne
      rcases hfind : (select_best (clean_rows rows)).find?
          (fun r => r.username == u) with _ | r'
      · rw [hfind] at hne; exact absurd rfl hne
      · have hpred := List.find?_some hfind
        have hmem := List.mem_of_find?_eq_some hfind
        exact ⟨r', hmem, by simpa using hpred⟩

/-- A valid record used to witness C3. -/
def demoRowA : Row := ⟨"alice", "", "", "alice@real.org", "bio", "", "", ""⟩

/-- Witness for C3: the surviving handle `alice` is present in the output. -/
theorem reducer_output_handles_witness :
    ∃ r ∈ select_best (clean_rows [demoRowA]), r.username = "alice" :=
  ((reducer_output_handles [demoRowA]).2.2 "alice").mpr ⟨demoRowA, by decide, rfl⟩

/-! ## Claim C4 (corrected): the filter stage -/

/-- A non-error row whose email has a domain that merely contains
`example.com` as a substring (`user@example.com.au`). -/
def c4row : Row := ⟨"u1", "", "", "user@example.com.au", "site", "", "", ""⟩

/-- Counterexample to C4 as stated: `c4row` is not an error placeholder, its
email is non-empty, has an `@`, and its domain is `example.com.au`, not the
placeholder domain `example.com`; yet the filter stage drops it. -/
theorem reducer_filter_counterexample :
    is_error_row c4row = false
    ∧ c4row.email ≠ ""
    ∧ containsL "@".data c4row.email.data = true
    ∧ String.mk (afterLastAt c4row.email.data) = "example.com.au"
    ∧ ("example.com.au" : String) ≠ "example.com"
    ∧ clean_rows [c4row] = [] := by decide

/-- C4 (amended): the filter stage drops exactly the error placeholders and
the rows whose email is empty, lacks an `@`, or contains `example.com` as a
case-insensitive substring anywhere; all other rows pass. -/
theorem reducer_filter_amended :
    ∀ rows : List Row, clean_rows rows = rows.filter (fun r => !amendedDrop r) := by
  intro rows
  rw [clean_rows]
  apply List.filter_congr
  intro r _
  rw [is_valid_email_eq, amendedDrop]
  by_cases he : r.email = ""
  · have hat : containsL "@".data r.email.data = false := by rw [he]; rfl
    simp [he, hat]
    intro _ h
    exact absurd h (by decide)
  · simp only [he, decide_False]
    cases herr : is_error_row r <;>
      cases hat : containsL "@".data r.email.data <;>
        cases hex : containsL "example.com".data (pyLower r.email) <;> simp

/-! ## Claim C10: substring rejection of the placeholder domain -/

/-- C10: any record whose email contains `example.com` case-insensitively
anywhere is excluded from the filtered rows and from the reduced output. -/
theorem placeholder_substring_excludes :
    ∀ (rows : List Row) (r : Row),
      containsL "example.com".data (pyLower r.email) = true →
      r ∉ clean_rows rows ∧ r ∉ select_best (clean_rows rows) := by
  intro rows r h
  have hval : is_valid_email r.email = false := by
    rw [is_valid_email_eq, h]; simp
  constructor
  · intro hmem
    rw [clean_rows] at hmem
    have hcond := (List.mem_filter.mp hmem).2
    simp [hval] at hcond
  · intro hmem
    have h1 := select_best_subset hmem
    rw [clean_rows] at h1
    have hcond := (List.mem_filter.mp h1).2
    simp [hval] at hcond

/-- A row whose email has `example.com` in its local part only. -/
def c10row : Row := ⟨"u2", "", "", "example.com@legit.org", "bio", "", "", ""⟩

/-- Witness for C10 at `example.com@legit.org`. -/
theorem placeholder_substring_excludes_witness :
    c10row ∉ clean_rows [c10row] ∧ c10row ∉ select_best (clean_rows [c10row]) :=
  placeholder_substring_excludes [c10row] c10row (by decide)

end EmailAutomation

namespace EmailAutomation

/-! ## scraper.py: guess_emails -/

/-- Python `str.strip()` on a character list. -/
def pyStripL (l : List Char) : List Char :=
  ((l.dropWhile isPyWs).reverse.dropWhile isPyWs).reverse

/-- `re.sub(r"[^a-zA-Z\s]", "", full_name).strip().lower()` from
`guess_emails`: keep letters and whitespace, strip, lower-case. -/
def cleanedName (full_name : String) : List Char :=
  (pyStripL (full_name.data.filter (fun c => isAsciiAlpha c || isPyWs c))).map
    Char.toLower

/-- Python `name.split()`: split on whitespace runs, dropping empty pieces.
The fuel argument makes the recursion structural; `pySplit` supplies enough
fuel for the whole input. -/
def pySplitF : Nat → List Char → List (List Char)
  | 0, _ => []
  | _ + 1, [] => []
  | fuel + 1, c :: cs =>
    if isPyWs c then pySplitF fuel cs
    else (c :: cs.takeWhile (fun d => !isPyWs d)) ::
      pySplitF fuel (cs.dropWhile (fun d => !isPyWs d))

/-- Python `name.split()` on a character list. -/
def pySplit (l : List Char) : List (List Char) := pySplitF l.length l

/-- The base set of local parts built by `guess_emails` from the first and
last name tokens: the six two-token patterns when `last` is non-empty, plus
the bare first token. -/
def guessBases (first last : List Char) : List (List Char) :=
  (if last ≠ [] then
     [first ++ '.' :: last, first ++ last, first.take 1 ++ last,
      first ++ last.take 1, first ++ '_' :: last, first ++ '-' :: last]
   else []) ++ [first]

/-- `guess_emails` from `scraper.py`. Python returns a set; the Lean
embedding returns the deduplicated list of generated addresses. -/
def guess_emails (full_name domain : String) : List String :=
  if domain = "" ∨ full_name = "" then []
  else if cleanedName full_name = [] then []
  else
    ((guessBases ((pySplit (cleanedName full_name)).headD [])
        (if 1 < (pySplit (cleanedName full_name)).length then
          (pySplit (cleanedName full_name)).getLastD []
         else [])).map (fun b => String.mk (b ++ '@' :: domain.data))).dedup

theorem pySplitF_tokens_ne_nil :
    ∀ (fuel : Nat) (l : List Char), ∀ t ∈ pySplitF fuel l, t ≠ [] := by
  intro fuel
  induction fuel with
  | zero => intro l t ht; exact absurd ht (List.not_mem_nil t)
  | succ fuel ih =>
    intro l t ht
    cases l with
    | nil => exact absurd ht (List.not_mem_nil t)
    | cons c cs =>
      rw [pySplitF] at ht
      split at ht
      · exact ih cs t ht
      · rcases List.mem_cons.mp ht with h | h
        · rw [h]; exact List.cons_ne_nil c _
        · exact ih _ t h

theorem getLastD_mem {α : Type} {l : List α} (h : l ≠ []) (d : α) :
    l.getLastD d ∈ l := by
  induction l with
  | nil => exact absurd rfl h
  | cons a l ih =>
    cases l with
    | nil => simp [List.getLastD]
    | cons b l' =>
      rw [List.getLastD_cons]
      exact List.mem_cons_of_mem _ (ih (List.cons_ne_nil b l'))

/-- C7: for every display name whose cleaned form has at least two tokens
and every non-empty domain, the guess set contains `first.last`,
`firstlast`, `fl+last`, `first+ll`, `first_last`, `first-last` and bare
`first`, each suffixed with `@domain`. -/
theorem guess_emails_patterns (full_name domain : String)
    (hdom : domain ≠ "")
    (hlen : 2 ≤ (pySplit (cleanedName full_name)).length) :
    ∀ b ∈ [(pySplit (cleanedName full_name)).headD [] ++ '.' ::
            (pySplit (cleanedName full_name)).getLastD [],
          (pySplit (cleanedName full_name)).headD [] ++
            (pySplit (cleanedName full_name)).getLastD [],
          ((pySplit (cleanedName full_name)).headD []).take 1 ++
            (pySplit (cleanedName full_name)).getLastD [],
          (pySplit (cleanedName full_name)).headD [] ++
            ((pySplit (cleanedName full_name)).getLastD []).take 1,
          (pySplit (cleanedName full_name)).headD [] ++ '_' ::
            (pySplit (cleanedName full_name)).getLastD [],
          (pySplit (cleanedName full_name)).headD [] ++ '-' ::
            (pySplit (cleanedName full_name)).getLastD [],
          (pySplit (cleanedName full_name)).headD []],
      String.mk (b ++ '@' :: domain.data) ∈ guess_emails full_name domain := by
  intro b hb
  have hclean : cleanedName full_name ≠ [] := by
    intro hnil
    rw [hnil] at hlen
    exact absurd hlen (by decide)
  have hfn : full_name ≠ "" := by
    intro hfn
    rw [hfn] at hclean
    exact hclean rfl
  have hparts : pySplit (cleanedName full_name) ≠ [] := by
    intro hnil
    rw [hnil] at hlen
    exact absurd hlen (by decide)
  have hlast : (pySplit (cleanedName full_name)).getLastD [] ≠ [] :=
    pySplitF_tokens_ne_nil _ _ _ (getLastD_mem hparts [])
  have hlt : 1 < (pySplit (cleanedName full_name)).length := hlen
  rw [guess_emails, if_neg (by simp [hdom, hfn]), if_neg hclean]
  refine List.mem_dedup.mpr (List.mem_map.mpr ⟨b, ?_, rfl⟩)
  rw [if_pos hlt]
  rw [guessBases, if_pos hlast]
  simpa using hb

/-- Witness for C7 at `guess("Jane Doe", "foo.com")`. -/
theorem guess_emails_patterns_witness :
    "jane.doe@foo.com" ∈ guess_emails "Jane Doe" "foo.com" ∧
    "janedoe@foo.com" ∈ guess_emails "Jane Doe" "foo.com" ∧
    "jdoe@foo.com" ∈ guess_emails "Jane Doe" "foo.com" ∧
    "janed@foo.com" ∈ guess_emails "Jane Doe" "foo.com" ∧
    "jane@foo.com" ∈ guess_emails "Jane Doe" "foo.com" := by
  have h := guess_emails_patterns "Jane Doe" "foo.com" (by decide) (by decide)
  exact ⟨h "jane.doe".data (by decide), h "janedoe".data (by decide),
    h "jdoe".data (by decide), h "janed".data (by decide),
    h "jane".data (by decide)⟩

end EmailAutomation

namespace EmailAutomation

/-! ## scraper.py: smtp_handshake_check -/

/-- `email.split("@", 1)[1]`: the part of a string after its first `@`
(meaningful when an `@` is present). -/
def afterFirstAt (l : List Char) : List Char :=
  (l.dropWhile (fun c => c ≠ '@')).drop 1

/-- Network actions the verifier can perform. -/
inductive NetAction where
  | resolveMX (domain : String)
  | smtpProbe (host : String) (email : String)
deriving DecidableEq, Repr

/-- Network environment of the verifier: the MX hosts DNS returns for a
domain (`none` models a resolver exception, including NXDOMAIN and
timeouts), and the SMTP RCPT reply code a host gives for an address
(`none` models a caught connection failure, which makes the loop try the
next host). -/
structure SmtpEnv where
  resolveMX : String → Option (List String)
  rcptCode : String → String → Option Nat

/-- The host-trial loop of `smtp_handshake_check`: try the MX hosts in
order; on a caught failure continue with the next host, otherwise classify
the RCPT reply code (2xx accepted, 5xx refused, anything else unknown) and
stop. Returns the `(status, note)` pair with the probes performed. -/
def smtpLoop (env : SmtpEnv) (email : String) :
    List String → (String × String) × List NetAction
  | [] => (("unknown", "mx_unreachable"), [])
  | host :: rest =>
    match env.rcptCode host email with
    | none =>
      ((smtpLoop env email rest).1,
        NetAction.smtpProbe host email :: (smtpLoop env email rest).2)
    | some code =>
      ((if 200 ≤ code ∧ code < 300 then ("accepted", host)
        else if 500 ≤ code ∧ code < 600 then
          ("refused", host ++ ":" ++ toString code)
        else ("unknown", host ++ ":" ++ toString code)),
       [NetAction.smtpProbe host email])

/-- `smtp_handshake_check` from `scraper.py`: the `(status, note)` pair it
returns together with the network actions it performs. The unpacking
`_, domain = email.split("@", 1)` raises exactly when the address has no
`@`, in which case the function answers `("unknown", "bad_email")` at once. -/
def smtp_handshake_check (env : SmtpEnv) (email : String) :
    (String × String) × List NetAction :=
  if containsL "@".data email.data then
    match env.resolveMX (String.mk (afterFirstAt email.data)) with
    | none => (("unknown", "no_mx"),
        [NetAction.resolveMX (String.mk (afterFirstAt email.data))])
    | some hosts =>
      ((smtpLoop env email hosts).1,
        NetAction.resolveMX (String.mk (afterFirstAt email.data)) ::
          (smtpLoop env email hosts).2)
  else (("unknown", "bad_email"), [])

/-- An environment in which DNS always fails and SMTP never connects. -/
def smtpEnvNone : SmtpEnv := ⟨fun _ => none, fun _ _ => none⟩

/-- Counterexample to C2 as stated: for `a@b@c.com` the verifier resolves
MX for `b@c.com`, the part after the **first** `@`, while splitting on the
last `@` as the claim states would give domain `c.com`. -/
theorem verifier_split_counterexample :
    (smtp_handshake_check smtpEnvNone "a@b@c.com").2
        = [NetAction.resolveMX "b@c.com"]
    ∧ String.mk (afterLastAt "a@b@c.com".data) = "c.com"
    ∧ ("b@c.com" : String) ≠ "c.com" := by decide

/-- C2 (amended): the verifier splits the address on the **first** `@`; the
MX lookup, when one happens, is for the part after the first `@`, and a
malformed address (no `@`) yields `smtpStatus` unknown with note
`bad_email` and no DNS or SMTP interaction at all. -/
theorem verifier_bad_email_no_network :
    (∀ (env : SmtpEnv) (email : String),
        ¬ containsL "@".data email.data = true →
        smtp_handshake_check env email = (("unknown", "bad_email"), []))
    ∧ (∀ (env : SmtpEnv) (email : String),
        containsL "@".data email.data = true →
        (smtp_handshake_check env email).2.head? =
          some (NetAction.resolveMX (String.mk (afterFirstAt email.data)))) := by
  constructor
  · intro env email h
    rw [smtp_handshake_check, if_neg h]
  · intro env email h
    rw [smtp_handshake_check, if_pos h]
    cases henv : env.resolveMX (String.mk (afterFirstAt email.data)) with
    | none => rfl
    | some hosts => rfl

/-- Witness for C2 (amended) on concrete addresses. -/
theorem verifier_bad_email_no_network_witness :
    smtp_handshake_check smtpEnvNone "nodomain" = (("unknown", "bad_email"), [])
    ∧ (smtp_handshake_check smtpEnvNone "a@b.c").2.head? =
        some (NetAction.resolveMX "b.c") :=
  ⟨verifier_bad_email_no_network.1 smtpEnvNone "nodomain" (by decide),
   verifier_bad_email_no_network.2 smtpEnvNone "a@b.c" (by decide)⟩

end EmailAutomation

namespace EmailAutomation

/-! ## scraper.py: the TextNormalizer regular expressions -/

/-- Characters of the local-part class `[a-zA-Z0-9_.+-]` of `EMAIL_REGEX`. -/
def isLocalChar (c : Char) : Bool :=
  isAsciiAlpha c || isAsciiDigit c || c = '_' || c = '.' || c = '+' || c = '-'

/-- Characters of the first domain class `[a-zA-Z0-9-]` of `EMAIL_REGEX`. -/
def isDomChar (c : Char) : Bool :=
  isAsciiAlpha c || isAsciiDigit c || c = '-'

/-- Characters of the final domain class `[a-zA-Z0-9-.]` of `EMAIL_REGEX`. -/
def isDomDotChar (c : Char) : Bool :=
  isDomChar c || c = '.'

/-- The match attempt of `EMAIL_REGEX` at the start of the input. The
pattern is the regular expression for `local@domain.tld` shapes used by the
scraper; each greedy `+`-run is delimited by a character outside its class,
and since the characters required after each run (`@`, `.`) lie outside the
preceding class, the backtracking engine accepts exactly when the maximal
runs do. Returns the matched characters and the rest of the input. -/
def matchEmailAt (s : List Char) : Option (List Char × List Char) :=
  if s.takeWhile isLocalChar = [] then none
  else
    match s.dropWhile isLocalChar with
    | [] => none
    | c :: r2 =>
      if c = '@' then
        if r2.takeWhile isDomChar = [] then none
        else
          match r2.dropWhile isDomChar with
          | [] => none
          | c2 :: r4 =>
            if c2 = '.' then
              if r4.takeWhile isDomDotChar = [] then none
              else some (s.takeWhile isLocalChar ++ c :: r2.takeWhile isDomChar ++
                  c2 :: r4.takeWhile isDomDotChar, r4.dropWhile isDomDotChar)
            else none
      else none

/-- `EMAIL_REGEX.finditer`: scan left to right; at each position take the
match starting there if any (continuing after it), else move one character.
The fuel argument makes the recursion structural; `scanEmails` supplies
enough fuel for the whole input. -/
def scanEmailsF : Nat → List Char → List (List Char)
  | 0, _ => []
  | _ + 1, [] => []
  | fuel + 1, c :: cs =>
    match matchEmailAt (c :: cs) with
    | some (m, r) => m :: scanEmailsF fuel r
    | none => scanEmailsF fuel cs

/-- All matches of `EMAIL_REGEX` in the input, in order. -/
def scanEmails (s : List Char) : List (List Char) := scanEmailsF s.length s

/-- Case-insensitive match of one pattern letter, as the `re.IGNORECASE`
flag treats the ASCII letters appearing in the OBFUSCATION pattern. -/
def ciIs (lit c : Char) : Bool := c.toLower = lit

/-- Alternatives 1 and 2 of the OBFUSCATION regex, with whitespace allowed
around the bracketed `at`: the bracket pair is `[`/`]` or `(`/`)`. -/
def matchBrAt (opn cls : Char) (s : List Char) : Option (List Char × List Char) :=
  match s.dropWhile isPyWs with
  | o :: r1 =>
    if o = opn then
      match r1.dropWhile isPyWs with
      | a :: t :: r2 =>
        if ciIs 'a' a && ciIs 't' t then
          match r2.dropWhile isPyWs with
          | c :: r3 =>
            if c = cls then
              some (s.takeWhile isPyWs ++ o :: r1.takeWhile isPyWs ++
                  a :: t :: r2.takeWhile isPyWs ++ c :: r3.takeWhile isPyWs,
                r3.dropWhile isPyWs)
            else none
          | _ => none
        else none
      | _ => none
    else none
  | _ => none

/-- Alternative 3 of the OBFUSCATION regex: `at` with non-empty whitespace
on both sides. -/
def matchWsAt (s : List Char) : Option (List Char × List Char) :=
  if s.takeWhile isPyWs = [] then none
  else match s.dropWhile isPyWs with
  | a :: t :: r2 =>
    if ciIs 'a' a && ciIs 't' t then
      if r2.takeWhile isPyWs = [] then none
      else some (s.takeWhile isPyWs ++ a :: t :: r2.takeWhile isPyWs,
        r2.dropWhile isPyWs)
    else none
  | _ => none

/-- Alternative 4 of the OBFUSCATION regex: a literal `[dot]` (no inner
whitespace in the source pattern) with whitespace allowed around it. -/
def matchBrDot (s : List Char) : Option (List Char × List Char) :=
  match s.dropWhile isPyWs with
  | [] => none
  | o :: rest =>
    if o = '[' then
      match rest with
      | d :: oo :: t :: c :: r =>
        if ciIs 'd' d && ciIs 'o' oo && ciIs 't' t && c = ']' then
          some (s.takeWhile isPyWs ++ o :: d :: oo :: t :: c :: r.takeWhile isPyWs,
            r.dropWhile isPyWs)
        else none
      | _ => none
    else none

/-- Alternative 5 of the OBFUSCATION regex: `(dot)` with whitespace allowed
inside and around the parentheses. -/
def matchParenDot (s : List Char) : Option (List Char × List Char) :=
  match s.dropWhile isPyWs with
  | o :: r1 =>
    if o = '(' then
      match r1.dropWhile isPyWs with
      | d :: oo :: t :: r2 =>
        if ciIs 'd' d && ciIs 'o' oo && ciIs 't' t then
          match r2.dropWhile isPyWs with
          | c :: r3 =>
            if c = ')' then
              some (s.takeWhile isPyWs ++ o :: r1.takeWhile isPyWs ++
                  d :: oo :: t :: r2.takeWhile isPyWs ++ c :: r3.takeWhile isPyWs,
                r3.dropWhile isPyWs)
            else none
          | _ => none
        else none
      | _ => none
    else none
  | _ => none

/-- Alternative 6 of the OBFUSCATION regex: `dot` with non-empty whitespace
on both sides. -/
def matchWsDot (s : List Char) : Option (List Char × List Char) :=
  if s.takeWhile isPyWs = [] then none
  else match s.dropWhile isPyWs with
  | d :: o :: t :: r2 =>
    if ciIs 'd' d && ciIs 'o' o && ciIs 't' t then
      if r2.takeWhile isPyWs = [] then none
      else some (s.takeWhile isPyWs ++ d :: o :: t :: r2.takeWhile isPyWs,
        r2.dropWhile isPyWs)
    else none
  | _ => none

/-- The OBFUSCATION regex match attempt at the start of the input, trying
the six alternatives in the order they appear in the pattern. -/
def matchObfAt (s : List Char) : Option (List Char × List Char) :=
  match matchBrAt '[' ']' s with
  | some res => some res
  | none =>
    match matchBrAt '(' ')' s with
    | some res => some res
    | none =>
      match matchWsAt s with
      | some res => some res
      | none =>
        match matchBrDot s with
        | some res => some res
        | none =>
          match matchParenDot s with
          | some res => some res
          | none => matchWsDot s

/-- The replacement the `OBFUSCATION.sub` lambda chooses: `@` when the
lower-cased match contains `at`, else `.`. -/
def obfRepl (m : List Char) : Char :=
  if containsL ['a', 't'] (m.map Char.toLower) then '@' else '.'

/-- `OBFUSCATION.sub`: replace each leftmost non-overlapping match, with
fuel for structural recursion. -/
def obfSubF : Nat → List Char → List Char
  | 0, _ => []
  | _ + 1, [] => []
  | fuel + 1, c :: cs =>
    match matchObfAt (c :: cs) with
    | some (m, r) => obfRepl m :: obfSubF fuel r
    | none => c :: obfSubF fuel cs

/-- `OBFUSCATION.sub` applied to a whole string. -/
def obfSub (s : List Char) : List Char := obfSubF s.length s

/-- Python `str.replace`: replace each leftmost non-overlapping occurrence
of `pat` with `rep`, with fuel for structural recursion. -/
def replaceLF (pat rep : List Char) : Nat → List Char → List Char
  | 0, _ => []
  | _ + 1, [] => []
  | fuel + 1, c :: cs =>
    if isPrefixL pat (c :: cs) then
      rep ++ replaceLF pat rep fuel ((c :: cs).drop pat.length)
    else c :: replaceLF pat rep fuel cs

/-- Python `str.replace` applied to a whole string. -/
def replaceL (pat rep s : List Char) : List Char := replaceLF pat rep s.length s

/-- `clean_obfuscated_email` from `scraper.py`: the OBFUSCATION
substitution followed by the four literal replacements, in source order. -/
def clean_obfuscated_email (text : String) : List Char :=
  replaceL " (dot) ".data ".".data
    (replaceL " [dot] ".data ".".data
      (replaceL " (at) ".data "@".data
        (replaceL " [at] ".data "@".data (obfSub text.data))))

/-- `extract_emails_from_text` from `scraper.py`. Python returns the set of
matches; the Lean embedding returns the deduplicated list of matches. -/
def extract_emails_from_text (text : String) : List String :=
  ((scanEmails (clean_obfuscated_email text)).map (fun l => String.mk l)).dedup

/-- C6: the two obfuscated addresses of the claim decode and extract to the
expected singleton sets. -/
theorem obfuscation_roundtrip :
    extract_emails_from_text "john [at] example [dot] com" = ["john@example.com"]
    ∧ extract_emails_from_text "john at example dot org" = ["john@example.org"] := by
  constructor <;> rfl

end EmailAutomation

namespace EmailAutomation

/-! ## Idempotence infrastructure: spans and match shapes -/

theorem takeWhile_all {p : Char → Bool} (a : List Char)
    (h : ∀ c ∈ a, p c = true) : a.takeWhile p = a := by
  induction a with
  | nil => rfl
  | cons x xs ih =>
    rw [List.takeWhile_cons, h x (List.mem_cons_self _ _)]
    simp [ih (fun c hc => h c (List.mem_cons_of_mem _ hc))]

theorem dropWhile_all {p : Char → Bool} (a : List Char)
    (h : ∀ c ∈ a, p c = true) : a.dropWhile p = [] := by
  induction a with
  | nil => rfl
  | cons x xs ih =>
    rw [List.dropWhile_cons, h x (List.mem_cons_self _ _)]
    simp [ih (fun c hc => h c (List.mem_cons_of_mem _ hc))]

theorem takeWhile_append_stop {p : Char → Bool} {a : List Char} (b : List Char)
    (ha : ∀ c ∈ a, p c = true)
    (hb : b = [] ∨ ∃ c cs, b = c :: cs ∧ p c = false) :
    (a ++ b).takeWhile p = a ∧ (a ++ b).dropWhile p = b := by
  rcases hb with rfl | ⟨c, cs, rfl, hc⟩
  · rw [List.append_nil]
    exact ⟨takeWhile_all a ha, dropWhile_all a ha⟩
  · constructor
    · rw [List.takeWhile_append_of_pos ha, List.takeWhile_cons, hc]
      simp
    · rw [List.dropWhile_append_of_pos ha, List.dropWhile_cons, hc]
      simp

/-- The characters that can occur in an `EMAIL_REGEX` match. -/
def okChar (c : Char) : Bool := isLocalChar c || c = '@'

/-- Shape of an `EMAIL_REGEX` match: a non-empty local run, `@`, a
non-empty dot-free domain run, `.`, and a non-empty final domain run. -/
def WFemail (e : List Char) : Prop :=
  ∃ L d1 d2, e = L ++ '@' :: (d1 ++ '.' :: d2) ∧
    L ≠ [] ∧ (∀ c ∈ L, isLocalChar c = true) ∧
    d1 ≠ [] ∧ (∀ c ∈ d1, isDomChar c = true) ∧
    d2 ≠ [] ∧ (∀ c ∈ d2, isDomDotChar c = true)

theorem isDomChar_local {c : Char} (h : isDomChar c = true) :
    isLocalChar c = true := by
  simp only [isDomChar, Bool.or_eq_true] at h
  rcases h with (h | h) | h <;> simp [isLocalChar, h]

theorem isDomDotChar_local {c : Char} (h : isDomDotChar c = true) :
    isLocalChar c = true := by
  simp only [isDomDotChar, Bool.or_eq_true] at h
  rcases h with h | h
  · exact isDomChar_local h
  · simp [isLocalChar, h]

theorem WFemail_ne_nil {e : List Char} (h : WFemail e) : e ≠ [] := by
  obtain ⟨L, d1, d2, rfl, hL, -⟩ := h
  intro hnil
  rcases List.append_eq_nil.mp hnil with ⟨-, h2⟩
  cases h2

theorem WFemail_chars {e : List Char} (h : WFemail e) :
    ∀ c ∈ e, okChar c = true := by
  obtain ⟨L, d1, d2, rfl, -, hLc, -, hd1c, -, hd2c⟩ := h
  intro c hc
  rcases List.mem_append.mp hc with hc | hc
  · simp [okChar, hLc c hc]
  · rcases List.mem_cons.mp hc with rfl | hc
    · simp [okChar]
    · rcases List.mem_append.mp hc with hc | hc
      · simp [okChar, isDomChar_local (hd1c c hc)]
      · rcases List.mem_cons.mp hc with rfl | hc
        · simp [okChar, isLocalChar]
        · simp [okChar, isDomDotChar_local (hd2c c hc)]

theorem WFemail_at_mem {e : List Char} (h : WFemail e) : '@' ∈ e := by
  obtain ⟨L, d1, d2, rfl, -⟩ := h
  exact List.mem_append.mpr (Or.inr (List.mem_cons_self _ _))

theorem matchEmailAt_wf {e rest : List Char} (hwf : WFemail e)
    (hrest : rest = [] ∨ ∃ c r', rest = c :: r' ∧ isDomDotChar c = false) :
    matchEmailAt (e ++ rest) = some (e, rest) := by
  obtain ⟨L, d1, d2, rfl, hL, hLc, hd1, hd1c, hd2, hd2c⟩ := hwf
  have h1 := takeWhile_append_stop (p := isLocalChar)
    ('@' :: (d1 ++ '.' :: (d2 ++ rest))) hLc
    (Or.inr ⟨'@', d1 ++ '.' :: (d2 ++ rest), rfl, by decide⟩)
  have h2 := takeWhile_append_stop (p := isDomChar)
    ('.' :: (d2 ++ rest)) hd1c
    (Or.inr ⟨'.', d2 ++ rest, rfl, by decide⟩)
  have h3 := takeWhile_append_stop (p := isDomDotChar) rest hd2c hrest
  have heq : (L ++ '@' :: (d1 ++ '.' :: d2)) ++ rest
      = L ++ '@' :: (d1 ++ '.' :: (d2 ++ rest)) := by
    simp [List.append_assoc]
  rw [heq]
  unfold matchEmailAt
  rw [h1.1, h1.2, if_neg hL]
  dsimp only
  rw [if_pos rfl, h2.1, h2.2, if_neg hd1]
  dsimp only
  rw [if_pos rfl, h3.1, h3.2, if_neg hd2]
  simp [List.append_assoc]

theorem matchEmailAt_inv {s m r : List Char}
    (h : matchEmailAt s = some (m, r)) :
    WFemail m ∧ s = m ++ r ∧ m ≠ [] := by
  unfold matchEmailAt at h
  by_cases h1 : s.takeWhile isLocalChar = []
  · rw [if_pos h1] at h; cases h
  rw [if_neg h1] at h
  rcases hd1 : s.dropWhile isLocalChar with _ | ⟨c, r2⟩ <;> rw [hd1] at h
  · cases h
  dsimp only at h
  by_cases hc : c = '@'
  swap
  · rw [if_neg hc] at h; cases h
  rw [if_pos hc] at h
  by_cases h2 : r2.takeWhile isDomChar = []
  · rw [if_pos h2] at h; cases h
  rw [if_neg h2] at h
  rcases hd2 : r2.dropWhile isDomChar with _ | ⟨c2, r4⟩ <;> rw [hd2] at h
  · cases h
  dsimp only at h
  by_cases hc2 : c2 = '.'
  swap
  · rw [if_neg hc2] at h; cases h
  rw [if_pos hc2] at h
  by_cases h3 : r4.takeWhile isDomDotChar = []
  · rw [if_pos h3] at h; cases h
  rw [if_neg h3] at h
  simp only [Option.some.injEq, Prod.mk.injEq] at h
  obtain ⟨hm, hr⟩ := h
  subst hc
  subst hc2
  have hsplit1 : s = s.takeWhile isLocalChar ++ ('@' :: r2) := by
    rw [← hd1, List.takeWhile_append_dropWhile]
  have hsplit2 : r2 = r2.takeWhile isDomChar ++ ('.' :: r4) := by
    rw [← hd2, List.takeWhile_append_dropWhile]
  have hsplit3 : r4 = r4.takeWhile isDomDotChar ++ r4.dropWhile isDomDotChar :=
    (List.takeWhile_append_dropWhile _ _).symm
  refine ⟨⟨s.takeWhile isLocalChar, r2.takeWhile isDomChar,
      r4.takeWhile isDomDotChar, ?_, h1, ?_, h2, ?_, h3, ?_⟩, ?_, ?_⟩
  · rw [← hm]; simp [List.append_assoc]
  · exact fun c hc => List.mem_takeWhile_imp hc
  · exact fun c hc => List.mem_takeWhile_imp hc
  · exact fun c hc => List.mem_takeWhile_imp hc
  · conv_lhs => rw [hsplit1]
    conv_lhs => rw [hsplit2]
    conv_lhs => rw [hsplit3]
    rw [← hm, ← hr]
    simp [List.append_assoc]
  · intro hnil
    rw [← hm] at hnil
    simp at hnil

theorem matchEmailAt_shrinks {s m r : List Char}
    (h : matchEmailAt s = some (m, r)) : r.length < s.length := by
  obtain ⟨-, hs, hm⟩ := matchEmailAt_inv h
  rw [hs, List.length_append]
  cases m with
  | nil => exact absurd rfl hm
  | cons x xs =>
    have hx : (x :: xs).length = xs.length + 1 := List.length_cons x xs
    omega

end EmailAutomation

namespace EmailAutomation

/-! ## Scan lemmas -/

theorem scanEmailsF_stable :
    ∀ (n : Nat) (s : List Char), s.length ≤ n →
      scanEmailsF (n + 1) s = scanEmailsF n s := by
  intro n
  induction n using Nat.strong_induction_on with
  | _ n ih =>
    intro s hs
    cases s with
    | nil => cases n <;> rfl
    | cons c cs =>
      have hn : cs.length + 1 ≤ n := by
        simpa [List.length_cons] using hs
      obtain ⟨n', rfl⟩ : ∃ n', n = n' + 1 := ⟨n - 1, by omega⟩
      rcases hm : matchEmailAt (c :: cs) with _ | ⟨m, r⟩
      · simp only [scanEmailsF, hm]
        exact ih n' (by omega) cs (by omega)
      · simp only [scanEmailsF, hm]
        have hr : r.length ≤ n' := by
          have := matchEmailAt_shrinks hm
          simp [List.length_cons] at this
          omega
        rw [ih n' (by omega) r hr]

theorem scanEmailsF_ge :
    ∀ (k n : Nat) (s : List Char), s.length ≤ n →
      scanEmailsF (n + k) s = scanEmailsF n s := by
  intro k
  induction k with
  | zero => intro n s h; rfl
  | succ k ih =>
    intro n s h
    have hh : n + (k + 1) = (n + k) + 1 := by omega
    rw [hh, scanEmailsF_stable (n + k) s (by omega), ih n s h]

theorem scanEmailsF_eq_scan {n : Nat} {s : List Char} (h : s.length ≤ n) :
    scanEmailsF n s = scanEmails s := by
  rw [scanEmails]
  obtain ⟨k, rfl⟩ : ∃ k, n = s.length + k := ⟨n - s.length, by omega⟩
  exact scanEmailsF_ge k s.length s le_rfl

theorem scanEmails_cons_some {c : Char} {cs m r : List Char}
    (h : matchEmailAt (c :: cs) = some (m, r)) :
    scanEmails (c :: cs) = m :: scanEmails r := by
  have hr : r.length ≤ cs.length := by
    have := matchEmailAt_shrinks h
    simp [List.length_cons] at this
    omega
  show scanEmailsF (c :: cs).length (c :: cs) = m :: scanEmails r
  rw [List.length_cons]
  simp only [scanEmailsF, h]
  rw [scanEmailsF_eq_scan hr]

theorem scanEmails_cons_none {c : Char} {cs : List Char}
    (h : matchEmailAt (c :: cs) = none) :
    scanEmails (c :: cs) = scanEmails cs := by
  show scanEmailsF (c :: cs).length (c :: cs) = scanEmails cs
  rw [List.length_cons]
  simp only [scanEmailsF, h]
  exact scanEmailsF_eq_scan le_rfl

theorem scanEmailsF_wf :
    ∀ (fuel : Nat) (s : List Char), ∀ m ∈ scanEmailsF fuel s, WFemail m := by
  intro fuel
  induction fuel with
  | zero => intro s m hm; exact absurd hm (List.not_mem_nil m)
  | succ fuel ih =>
    intro s m hm
    cases s with
    | nil => exact absurd hm (List.not_mem_nil m)
    | cons c cs =>
      rcases hmm : matchEmailAt (c :: cs) with _ | ⟨m0, r⟩
      · rw [scanEmailsF, hmm] at hm
        exact ih cs m hm
      · rw [scanEmailsF, hmm] at hm
        rcases List.mem_cons.mp hm with rfl | hmem
        · exact (matchEmailAt_inv hmm).1
        · exact ih r m hmem

theorem scanEmails_wf {s : List Char} : ∀ m ∈ scanEmails s, WFemail m :=
  scanEmailsF_wf s.length s

/-! ## Joining extracted addresses with single spaces -/

/-- The tail of a space-join: a space before each further element. -/
def joinSpTail : List (List Char) → List Char
  | [] => []
  | e :: l => ' ' :: (e ++ joinSpTail l)

/-- `" ".join(l)` on character lists. -/
def joinSp : List (List Char) → List Char
  | [] => []
  | e :: l => e ++ joinSpTail l

theorem joinSpTail_shape (l : List (List Char)) :
    joinSpTail l = [] ∨ ∃ c r', joinSpTail l = c :: r' ∧ isDomDotChar c = false := by
  cases l with
  | nil => exact Or.inl rfl
  | cons e l => exact Or.inr ⟨' ', e ++ joinSpTail l, rfl, by decide⟩

theorem scanEmails_append_some {e rest : List Char} (hne : e ≠ [])
    (h : matchEmailAt (e ++ rest) = some (e, rest)) :
    scanEmails (e ++ rest) = e :: scanEmails rest := by
  cases e with
  | nil => exact absurd rfl hne
  | cons c cs =>
    rw [List.cons_append] at h ⊢
    exact scanEmails_cons_some h

theorem scanEmails_join (l : List (List Char)) (hl : ∀ e ∈ l, WFemail e) :
    scanEmails (joinSp l) = l := by
  induction l with
  | nil => rfl
  | cons e l ih =>
    have hwf : WFemail e := hl e (List.mem_cons_self _ _)
    have hmatch : matchEmailAt (e ++ joinSpTail l) = some (e, joinSpTail l) :=
      matchEmailAt_wf hwf (joinSpTail_shape l)
    have hne : e ≠ [] := WFemail_ne_nil hwf
    rw [joinSp, scanEmails_append_some hne hmatch]
    congr 1
    cases l with
    | nil => rfl
    | cons e2 l2 =>
      rw [joinSpTail]
      have hnil : matchEmailAt (' ' :: (e2 ++ joinSpTail l2)) = none := by
        have hsp : isLocalChar ' ' = false := by decide
        unfold matchEmailAt
        rw [if_pos (by simp [List.takeWhile_cons, hsp])]
      rw [scanEmails_cons_none hnil]
      have : e2 ++ joinSpTail l2 = joinSp (e2 :: l2) := rfl
      rw [this]
      exact ih (fun x hx => hl x (List.mem_cons_of_mem _ hx))

end EmailAutomation

namespace EmailAutomation

/-! ## No OBFUSCATION match inside a join of extracted addresses -/

theorem okChar_toNat {c : Char} (h : okChar c = true) :
    (0x41 ≤ c.toNat ∧ c.toNat ≤ 0x5a) ∨ (0x61 ≤ c.toNat ∧ c.toNat ≤ 0x7a) ∨
    (0x30 ≤ c.toNat ∧ c.toNat ≤ 0x39) ∨ c.toNat = 0x5f ∨ c.toNat = 0x2e ∨
    c.toNat = 0x2b ∨ c.toNat = 0x2d ∨ c.toNat = 0x40 := by
  rw [okChar, Bool.or_eq_true] at h
  rcases h with h | h
  · simp only [isLocalChar, isAsciiAlpha, isAsciiDigit, Bool.or_eq_true,
      Bool.and_eq_true, decide_eq_true_eq] at h
    rcases h with (((((h | h) | h) | h) | h) | h) | h
    · omega
    · omega
    · omega
    · subst h; decide
    · subst h; decide
    · subst h; decide
    · subst h; decide
  · simp only [decide_eq_true_eq] at h
    subst h; decide

theorem isPyWs_toNat {c : Char} (h : isPyWs c = true) :
    c.toNat = 0x09 ∨ c.toNat = 0x0a ∨ c.toNat = 0x0b ∨ c.toNat = 0x0c ∨
    c.toNat = 0x0d ∨ c.toNat = 0x1c ∨ c.toNat = 0x1d ∨ c.toNat = 0x1e ∨
    c.toNat = 0x1f ∨ c.toNat = 0x20 ∨ c.toNat = 0x85 ∨ c.toNat = 0xa0 ∨
    c.toNat = 0x1680 ∨ (0x2000 ≤ c.toNat ∧ c.toNat ≤ 0x200a) ∨
    c.toNat = 0x2028 ∨ c.toNat = 0x2029 ∨ c.toNat = 0x202f ∨
    c.toNat = 0x205f ∨ c.toNat = 0x3000 := by
  simp only [isPyWs, Bool.or_eq_true, Bool.and_eq_true, decide_eq_true_eq] at h
  omega

theorem okChar_not_pyWs {c : Char} (h : okChar c = true) : isPyWs c = false := by
  rw [Bool.eq_false_iff]
  intro hws
  have h1 := okChar_toNat h
  have h2 := isPyWs_toNat hws
  omega

theorem okChar_ne_bracket {c : Char} (h : okChar c = true) :
    c ≠ '[' ∧ c ≠ '(' := by
  have h1 := okChar_toNat h
  constructor <;> rintro rfl <;> revert h1 <;> decide

/-- An extracted address as the join invariant needs it: non-empty, made of
match characters, containing an `@`. -/
def EOK (e : List Char) : Prop :=
  e ≠ [] ∧ (∀ c ∈ e, okChar c = true) ∧ '@' ∈ e

/-- The tail shape of a space-join of extracted addresses. -/
inductive RestGood : List Char → Prop
  | nil : RestGood []
  | cons (e r : List Char) : EOK e → RestGood r → RestGood (' ' :: (e ++ r))

/-- Any suffix of a space-join of extracted addresses: a run of match
characters followed by a `RestGood` tail. -/
def SuffixGood (t : List Char) : Prop :=
  ∃ u r, t = u ++ r ∧ (∀ c ∈ u, okChar c = true) ∧ RestGood r

theorem restGood_inv {r : List Char} (h : RestGood r) :
    r = [] ∨ ∃ e r', EOK e ∧ RestGood r' ∧ r = ' ' :: (e ++ r') := by
  cases h with
  | nil => exact Or.inl rfl
  | cons e r' he hr => exact Or.inr ⟨e, r', he, hr, rfl⟩

theorem matchObfAt_none_ok {c : Char} {t' : List Char} (hok : okChar c = true) :
    matchObfAt (c :: t') = none := by
  have hws : isPyWs c = false := okChar_not_pyWs hok
  have htake : (c :: t').takeWhile isPyWs = [] := by
    simp [List.takeWhile_cons, hws]
  have hdrop : (c :: t').dropWhile isPyWs = c :: t' := by
    simp [List.dropWhile_cons, hws]
  have hbr := okChar_ne_bracket hok
  have h1 : matchBrAt '[' ']' (c :: t') = none := by
    unfold matchBrAt
    rw [hdrop]
    dsimp only
    rw [if_neg hbr.1]
  have h2 : matchBrAt '(' ')' (c :: t') = none := by
    unfold matchBrAt
    rw [hdrop]
    dsimp only
    rw [if_neg hbr.2]
  have h3 : matchWsAt (c :: t') = none := by
    unfold matchWsAt
    rw [htake, if_pos rfl]
  have h4 : matchBrDot (c :: t') = none := by
    unfold matchBrDot
    rw [hdrop]
    dsimp only
    rw [if_neg hbr.1]
  have h5 : matchParenDot (c :: t') = none := by
    unfold matchParenDot
    rw [hdrop]
    dsimp only
    rw [if_neg hbr.2]
  have h6 : matchWsDot (c :: t') = none := by
    unfold matchWsDot
    rw [htake, if_pos rfl]
  rw [matchObfAt, h1, h2, h3, h4, h5, h6]

end EmailAutomation

namespace EmailAutomation

theorem matchObfAt_none_space {e r' : List Char} (he : EOK e) (hr : RestGood r') :
    matchObfAt (' ' :: (e ++ r')) = none := by
  obtain ⟨hne, hchars, hat⟩ := he
  rcases e with _ | ⟨c0, e'⟩
  · exact absurd rfl hne
  rw [List.cons_append]
  have hok0 : okChar c0 = true := hchars c0 (List.mem_cons_self _ _)
  have hws0 : isPyWs c0 = false := okChar_not_pyWs hok0
  have hbr0 := okChar_ne_bracket hok0
  have hsp : isPyWs ' ' = true := by decide
  have htake : (' ' :: c0 :: (e' ++ r')).takeWhile isPyWs = [' '] := by
    simp [List.takeWhile_cons, hsp, hws0]
  have hdrop : (' ' :: c0 :: (e' ++ r')).dropWhile isPyWs = c0 :: (e' ++ r') := by
    simp [List.dropWhile_cons, hsp, hws0]
  have h1 : matchBrAt '[' ']' (' ' :: c0 :: (e' ++ r')) = none := by
    unfold matchBrAt
    rw [hdrop]
    dsimp only
    rw [if_neg hbr0.1]
  have h2 : matchBrAt '(' ')' (' ' :: c0 :: (e' ++ r')) = none := by
    unfold matchBrAt
    rw [hdrop]
    dsimp only
    rw [if_neg hbr0.2]
  have h4 : matchBrDot (' ' :: c0 :: (e' ++ r')) = none := by
    unfold matchBrDot
    rw [hdrop]
    dsimp only
    rw [if_neg hbr0.1]
  have h5 : matchParenDot (' ' :: c0 :: (e' ++ r')) = none := by
    unfold matchParenDot
    rw [hdrop]
    dsimp only
    rw [if_neg hbr0.2]
  have hta : ciIs 't' ' ' = false := by decide
  have hoa : ciIs 'o' ' ' = false := by decide
  have h3 : matchWsAt (' ' :: c0 :: (e' ++ r')) = none := by
    unfold matchWsAt
    rw [htake, hdrop, if_neg (by simp)]
    cases e' with
    | nil =>
      rcases restGood_inv hr with rfl | ⟨e2, r2', he2, hr2, rfl⟩
      · rfl
      · simp only [List.nil_append]
        rw [if_neg (by simp [hta])]
    | cons c1 e'' =>
      simp only [List.cons_append]
      by_cases hcond : (ciIs 'a' c0 && ciIs 't' c1) = true
      · rw [if_pos hcond]
        cases e'' with
        | cons c2 e3 =>
          have hok2 : okChar c2 = true := hchars c2 (by simp)
          rw [if_pos (by simp [List.cons_append, List.takeWhile_cons,
            okChar_not_pyWs hok2])]
        | nil =>
          rcases restGood_inv hr with rfl | ⟨e2, r2', he2, hr2, rfl⟩
          · rw [if_pos (by simp)]
          · exfalso
            rw [Bool.and_eq_true] at hcond
            rcases List.mem_cons.mp hat with h0 | h0
            · rw [← h0] at hcond
              exact absurd hcond.1 (by decide)
            · rcases List.mem_cons.mp h0 with h1 | h1
              · rw [← h1] at hcond
                exact absurd hcond.2 (by decide)
              · exact absurd h1 (List.not_mem_nil _)
      · rw [if_neg hcond]
  have h6 : matchWsDot (' ' :: c0 :: (e' ++ r')) = none := by
    unfold matchWsDot
    rw [htake, hdrop, if_neg (by simp)]
    cases e' with
    | nil =>
      rcases restGood_inv hr with rfl | ⟨e2, r2', he2, hr2, rfl⟩
      · rfl
      · rcases e2 with _ | ⟨c20, e2'⟩
        · exact absurd rfl he2.1
        · simp only [List.nil_append, List.cons_append]
          rw [if_neg (by simp [hoa])]
    | cons c1 e'' =>
      cases e'' with
      | nil =>
        rcases restGood_inv hr with rfl | ⟨e2, r2', he2, hr2, rfl⟩
        · rfl
        · simp only [List.cons_append, List.nil_append]
          rw [if_neg (by simp [hta])]
      | cons c2 e3 =>
        simp only [List.cons_append]
        by_cases hcond : ((ciIs 'd' c0 && ciIs 'o' c1) && ciIs 't' c2) = true
        · rw [if_pos (by simpa using hcond)]
          cases e3 with
          | cons c3 e4 =>
            have hok3 : okChar c3 = true := hchars c3 (by simp)
            rw [if_pos (by simp [List.cons_append, List.takeWhile_cons,
              okChar_not_pyWs hok3])]
          | nil =>
            rcases restGood_inv hr with rfl | ⟨e2, r2', he2, hr2, rfl⟩
            · rw [if_pos (by simp)]
            · exfalso
              rw [Bool.and_eq_true, Bool.and_eq_true] at hcond
              rcases List.mem_cons.mp hat with h0 | h0
              · rw [← h0] at hcond
                exact absurd hcond.1.1 (by decide)
              · rcases List.mem_cons.mp h0 with h1 | h1
                · rw [← h1] at hcond
                  exact absurd hcond.1.2 (by decide)
                · rcases List.mem_cons.mp h1 with h2 | h2
                  · rw [← h2] at hcond
                    exact absurd hcond.2 (by decide)
                  · exact absurd h2 (List.not_mem_nil _)
        · rw [if_neg (by simpa using hcond)]
  rw [matchObfAt, h1, h2, h3, h4, h5, h6]

theorem matchObfAt_none_good {t : List Char} (h : SuffixGood t) :
    matchObfAt t = none := by
  obtain ⟨u, r, rfl, hu, hr⟩ := h
  cases u with
  | cons c u' =>
    rw [List.cons_append]
    exact matchObfAt_none_ok (hu c (List.mem_cons_self _ _))
  | nil =>
    rw [List.nil_append]
    rcases restGood_inv hr with rfl | ⟨e, r', he, hr', rfl⟩
    · rfl
    · exact matchObfAt_none_space he hr'

theorem suffixGood_tail {c : Char} {cs : List Char} (h : SuffixGood (c :: cs)) :
    SuffixGood cs := by
  obtain ⟨u, r, heq, hu, hr⟩ := h
  cases u with
  | cons c' u' =>
    rw [List.cons_append] at heq
    injection heq with h1 h2
    exact ⟨u', r, h2, fun x hx => hu x (List.mem_cons_of_mem _ hx), hr⟩
  | nil =>
    rw [List.nil_append] at heq
    rcases restGood_inv hr with rfl | ⟨e, r', he, hr', rfl⟩
    · cases heq
    · injection heq with h1 h2
      exact ⟨e, r', h2, he.2.1, hr'⟩

end EmailAutomation

namespace EmailAutomation

/-! ## The obfuscation pass and the literal replacements fix joins -/

section

attribute [local irreducible] matchObfAt

theorem obfSubF_good : ∀ (fuel : Nat) (t : List Char), t.length ≤ fuel →
    SuffixGood t → obfSubF fuel t = t := by
  intro fuel
  induction fuel with
  | zero =>
    intro t ht _
    rw [List.eq_nil_of_length_eq_zero (Nat.le_zero.mp ht)]
    rfl
  | succ fuel ih =>
    intro t ht hg
    cases t with
    | nil => rfl
    | cons c cs =>
      have hnone := matchObfAt_none_good hg
      simp only [obfSubF, hnone]
      exact congrArg (c :: ·)
        (ih cs (by simp [List.length_cons] at ht; omega) (suffixGood_tail hg))

theorem obfSub_good {t : List Char} (h : SuffixGood t) : obfSub t = t :=
  obfSubF_good t.length t le_rfl h

end

theorem restGood_chars {r : List Char} (h : RestGood r) :
    ∀ c ∈ r, okChar c = true ∨ c = ' ' := by
  induction h with
  | nil => intro c hc; exact absurd hc (List.not_mem_nil c)
  | cons e r' he hr ih =>
    intro c hc
    rcases List.mem_cons.mp hc with rfl | hc
    · exact Or.inr rfl
    · rcases List.mem_append.mp hc with hc | hc
      · exact Or.inl (he.2.1 c hc)
      · exact ih c hc

theorem suffixGood_chars {t : List Char} (h : SuffixGood t) :
    ∀ c ∈ t, okChar c = true ∨ c = ' ' := by
  obtain ⟨u, r, rfl, hu, hr⟩ := h
  intro c hc
  rcases List.mem_append.mp hc with hc | hc
  · exact Or.inl (hu c hc)
  · exact restGood_chars hr c hc

theorem isPrefixL_mem : ∀ (p t : List Char), isPrefixL p t = true →
    ∀ x ∈ p, x ∈ t := by
  intro p
  induction p with
  | nil => intro t _ x hx; exact absurd hx (List.not_mem_nil x)
  | cons a as ih =>
    intro t hp x hx
    cases t with
    | nil => simp [isPrefixL] at hp
    | cons b bs =>
      rw [isPrefixL, Bool.and_eq_true] at hp
      obtain ⟨hab, htail⟩ := hp
      rcases List.mem_cons.mp hx with rfl | hx
      · rw [of_decide_eq_true hab]
        exact List.mem_cons_self _ _
      · exact List.mem_cons_of_mem _ (ih bs htail x hx)

theorem replaceLF_id {pat rep : List Char} {c0 : Char} (hc0 : c0 ∈ pat) :
    ∀ (fuel : Nat) (t : List Char), t.length ≤ fuel → c0 ∉ t →
      replaceLF pat rep fuel t = t := by
  intro fuel
  induction fuel with
  | zero =>
    intro t ht _
    rw [List.eq_nil_of_length_eq_zero (Nat.le_zero.mp ht)]
    rfl
  | succ fuel ih =>
    intro t ht hmem
    cases t with
    | nil => rfl
    | cons c cs =>
      have hpre : isPrefixL pat (c :: cs) = false := by
        rw [Bool.eq_false_iff]
        intro hp
        exact hmem (isPrefixL_mem pat (c :: cs) hp c0 hc0)
      rw [replaceLF, hpre]
      simp only [Bool.false_eq_true, if_false]
      rw [ih cs (by simp [List.length_cons] at ht; omega)
        (fun hx => hmem (List.mem_cons_of_mem _ hx))]

theorem replaceL_id (c0 : Char) {pat rep t : List Char} (hc0 : c0 ∈ pat)
    (hmem : c0 ∉ t) : replaceL pat rep t = t :=
  replaceLF_id hc0 t.length t le_rfl hmem

theorem clean_obfuscated_good {t : List Char} (h : SuffixGood t) :
    clean_obfuscated_email (String.mk t) = t := by
  have hchars := suffixGood_chars h
  have hnb : '[' ∉ t := by
    intro hmem
    rcases hchars '[' hmem with hok | hsp
    · exact absurd hok (by decide)
    · exact absurd hsp (by decide)
  have hnp : '(' ∉ t := by
    intro hmem
    rcases hchars '(' hmem with hok | hsp
    · exact absurd hok (by decide)
    · exact absurd hsp (by decide)
  show replaceL " (dot) ".data ".".data
      (replaceL " [dot] ".data ".".data
        (replaceL " (at) ".data "@".data
          (replaceL " [at] ".data "@".data (obfSub (String.mk t).data)))) = t
  have hdata : (String.mk t).data = t := rfl
  rw [hdata, obfSub_good h]
  rw [replaceL_id '[' (by decide) hnb]
  rw [replaceL_id '(' (by decide) hnp]
  rw [replaceL_id '[' (by decide) hnb]
  rw [replaceL_id '(' (by decide) hnp]

theorem restGood_joinSpTail (l : List (List Char)) (h : ∀ m ∈ l, EOK m) :
    RestGood (joinSpTail l) := by
  induction l with
  | nil => exact RestGood.nil
  | cons e l ih =>
    exact RestGood.cons e (joinSpTail l) (h e (List.mem_cons_self _ _))
      (ih (fun m hm => h m (List.mem_cons_of_mem _ hm)))

theorem suffixGood_joinSp (l : List (List Char)) (h : ∀ m ∈ l, EOK m) :
    SuffixGood (joinSp l) := by
  cases l with
  | nil => exact ⟨[], [], rfl, by simp, RestGood.nil⟩
  | cons e l =>
    exact ⟨e, joinSpTail l, rfl, (h e (List.mem_cons_self _ _)).2.1,
      restGood_joinSpTail l (fun m hm => h m (List.mem_cons_of_mem _ hm))⟩

theorem map_mk_data (l : List String) :
    l.map (fun x => String.mk x.data) = l := by
  induction l with
  | nil => rfl
  | cons x xs ih =>
    rw [List.map_cons, ih]

/-- C5: extraction is idempotent: joining any enumeration of the extracted
set with single spaces and extracting again yields the same set. -/
theorem extract_idempotent :
    ∀ (text : String) (l : List String),
      (∀ e, e ∈ l ↔ e ∈ extract_emails_from_text text) →
      ∀ e, e ∈ extract_emails_from_text (String.mk (joinSp (l.map String.data)))
          ↔ e ∈ extract_emails_from_text text := by
  intro text l hl e
  have hwfl : ∀ m ∈ l.map String.data, WFemail m := by
    intro m hm
    obtain ⟨x, hx, rfl⟩ := List.mem_map.mp hm
    have hx' : x ∈ extract_emails_from_text text := (hl x).mp hx
    unfold extract_emails_from_text at hx'
    have hx'' := List.mem_dedup.mp hx'
    obtain ⟨m', hm', hmk⟩ := List.mem_map.mp hx''
    have hde : x.data = m' := by rw [← hmk]
    rw [hde]
    exact scanEmails_wf m' hm'
  have hEOK : ∀ m ∈ l.map String.data, EOK m := fun m hm =>
    ⟨WFemail_ne_nil (hwfl m hm), WFemail_chars (hwfl m hm),
      WFemail_at_mem (hwfl m hm)⟩
  have hgood : SuffixGood (joinSp (l.map String.data)) :=
    suffixGood_joinSp _ hEOK
  have hLHS : extract_emails_from_text
      (String.mk (joinSp (l.map String.data))) = l.dedup := by
    unfold extract_emails_from_text
    rw [clean_obfuscated_good hgood, scanEmails_join _ hwfl, List.map_map]
    exact congrArg List.dedup (map_mk_data l)
  rw [hLHS, List.mem_dedup]
  exact hl e

/-- Witness for C5: re-extracting the joined extraction of a concrete
obfuscated text yields the same set. -/
theorem extract_idempotent_witness :
    "john@example.com" ∈ extract_emails_from_text (String.mk (joinSp
      ((extract_emails_from_text "john [at] example [dot] com").map
        String.data))) :=
  (extract_idempotent "john [at] example [dot] com"
    (extract_emails_from_text "john [at] example [dot] com")
    (fun _ => Iff.rfl) "john@example.com").mpr (by decide)

end EmailAutomation

namespace EmailAutomation

/-! ## scraper.py: extract_emails_and_links_from_url -/

/-- HTTP actions of one fetch: the preliminary HEAD size probe and the full
GET retrieval. -/
inductive FetchAction where
  | probe (url : String)
  | retrieve (url : String)
deriving DecidableEq, Repr

/-- What the GET of a page yields once the HTTP and HTML libraries have
parsed it: the response status code, the addresses found verbatim in
`mailto:` anchors, the visible text joined with the meta contents, and the
anchor targets already resolved to absolute URLs with fragment-only and
`mailto:` anchors discarded (the `requests`, `BeautifulSoup` and `urljoin`
work lives in the environment). -/
structure GetResult where
  statusCode : Int
  mailtoEmails : List String
  textBlob : String
  links : List String

/-- Network environment of one fetch: the parsed `Content-Length` value of
the HEAD probe (`none` when the header is absent or empty, in which case
the source falls back to 0), and the GET result. Either step may raise; the
error carries the exception type name. -/
structure FetchEnv where
  contentLength : Except String (Option Int)
  page : Except String GetResult

/-- `extract_emails_and_links_from_url` from `scraper.py`: the
`(emails, links, note)` triple it returns together with the HTTP actions it
performs. The size guard is the source's `if size and size > max_bytes`,
that is, a nonzero parsed Content-Length strictly above the cap. -/
def extract_emails_and_links_from_url (env : FetchEnv) (url : String)
    (max_bytes : Int) :
    (List String × List String × String) × List FetchAction :=
  match env.contentLength with
  | .error ekind => (([], [], "error:" ++ ekind), [FetchAction.probe url])
  | .ok clOpt =>
    if clOpt.getD 0 ≠ 0 ∧ clOpt.getD 0 > max_bytes then
      (([], [], "skip_large:" ++ toString (clOpt.getD 0)), [FetchAction.probe url])
    else
      match env.page with
      | .error ekind =>
        (([], [], "error:" ++ ekind),
          [FetchAction.probe url, FetchAction.retrieve url])
      | .ok g =>
        if g.statusCode ≥ 400 then
          (([], [], "http_" ++ toString g.statusCode),
            [FetchAction.probe url, FetchAction.retrieve url])
        else
          (((g.mailtoEmails ++ extract_emails_from_text g.textBlob).dedup,
              g.links, "ok"),
            [FetchAction.probe url, FetchAction.retrieve url])

/-- An environment advertising `Content-Length: 0` and serving an empty
page. -/
def fetchEnvZero : FetchEnv := ⟨.ok (some 0), .ok ⟨200, [], "", []⟩⟩

/-- Counterexample to C8 as stated: with cap `-1`, an advertised content
length of `0` strictly exceeds the cap, yet the fetch is not skipped — the
full body retrieval happens and the status is `ok`, because the source's
guard `if size and size > max_bytes` also requires the size to be nonzero
(truthy). -/
theorem fetcher_skip_counterexample :
    ((0 : Int) > (-1 : Int))
    ∧ (extract_emails_and_links_from_url fetchEnvZero "http://x" (-1)).1.2.2
        = "ok"
    ∧ FetchAction.retrieve "http://x"
        ∈ (extract_emails_and_links_from_url fetchEnvZero "http://x" (-1)).2 := by
  decide

/-- C8 (amended): whenever the size probe reports a **nonzero** advertised
content length strictly exceeding `max_bytes`, the fetch returns
immediately with status `skip_large:<size>`, empty email and link sets,
and performs no body retrieval — its only network action is the probe. -/
theorem fetcher_skip_large :
    ∀ (env : FetchEnv) (url : String) (max_bytes size : Int),
      env.contentLength = .ok (some size) → size ≠ 0 → size > max_bytes →
      extract_emails_and_links_from_url env url max_bytes =
        (([], [], "skip_large:" ++ toString size), [FetchAction.probe url]) := by
  intro env url mb size hcl hnz hgt
  unfold extract_emails_and_links_from_url
  rw [hcl]
  dsimp only [Option.getD]
  rw [if_pos ⟨hnz, hgt⟩]

/-- An environment advertising a two-megabyte page. -/
def fetchEnvBig : FetchEnv := ⟨.ok (some 2000000), .ok ⟨200, [], "", []⟩⟩

/-- Witness for C8 (amended): a two-megabyte page against a one-megabyte
cap is skipped with only the probe performed. -/
theorem fetcher_skip_large_witness :
    extract_emails_and_links_from_url fetchEnvBig "https://big.site" 1000000 =
      (([], [], "skip_large:" ++ toString (2000000 : Int)),
        [FetchAction.probe "https://big.site"]) :=
  fetcher_skip_large fetchEnvBig "https://big.site" 1000000 2000000 rfl
    (by decide) (by decide)

end EmailAutomation

namespace EmailAutomation

/-! ## scraper.py: the per-identity pipeline of main -/

/-- The `AGGREGATOR_DOMAINS` set of `scraper.py`. -/
def AGGREGATOR_DOMAINS : List String :=
  ["linktr.ee", "bio.site", "beacons.ai", "bit.ly", "campsite.bio",
   "msha.ke", "withkoji.com", "stan.store"]

/-- The `SOCIAL_DOMAINS` set of `scraper.py`. -/
def SOCIAL_DOMAINS : List String :=
  ["instagram.com", "facebook.com", "fb.com", "youtube.com", "youtu.be",
   "tiktok.com", "x.com", "twitter.com", "pinterest.com", "patreon.com",
   "substack.com"]

/-- `is_aggregator_or_social` from `scraper.py`. -/
def is_aggregator_or_social (domain : String) : Bool :=
  AGGREGATOR_DOMAINS.contains domain || SOCIAL_DOMAINS.contains domain

/-- The profile fields `main` reads, with the `or ""` fallbacks applied. -/
structure Profile where
  full_name : String
  bio : String
  external_url : String

/-- The run environment of one identity: the profile fetch (an error
carries the exception type name), the page fetcher keyed by URL returning
`(emails, links, note)`, the registrable-domain resolver (`tldextract`, an
external library, is part of the environment), and the DNS and SMTP
oracles. Within one run each is a fixed function of its inputs. -/
structure RunEnv where
  profile : Except String Profile
  fetch : String → List String × List String × String
  domainOf : String → Option String
  mx : String → Bool
  smtp : String → String × String

/-- The configuration switches of `main` the pipeline model depends on. -/
structure Config where
  smtpVerify : Bool
  maxDeepLinks : Int

/-- One output row as `main` builds it: `mx` is `str(mx_ok)`, and the SMTP
fields are filled only when verification is enabled and MX exists. -/
def mkRow (cfg : Config) (env : RunEnv) (u fn ext em src : String) : Row :=
  ⟨u, fn, ext, em, src,
    if env.mx (String.mk (afterLastAt em.data)) then "True" else "False",
    (if cfg.smtpVerify && env.mx (String.mk (afterLastAt em.data)) then
      env.smtp em else ("", "")).1,
    (if cfg.smtpVerify && env.mx (String.mk (afterLastAt em.data)) then
      env.smtp em else ("", "")).2⟩

/-- The `candidate_domains` dict of `main`: one representative link per
distinct non-aggregator, non-social domain, first link seen wins. -/
def candidateDomains (env : RunEnv) (links : List String) :
    List (String × String) :=
  links.foldl (fun acc link =>
    match env.domainOf link with
    | none => acc
    | some d =>
      if is_aggregator_or_social d then acc
      else if (acc.lookup d).isSome then acc
      else acc ++ [(d, link)]) []

/-- One iteration of the deep-crawl loop of `main`: fetch the
representative link, append its `site_deep` rows, and record the domain as
personal when the fetch yielded at least one email. -/
def deepStep (cfg : Config) (env : RunEnv) (u fn : String)
    (acc : List Row × List String) (dl : String × String) :
    List Row × List String :=
  ((acc.1 ++ ((env.fetch dl.2).1).map
      (fun em => mkRow cfg env u fn dl.2 em "site_deep")),
   if (env.fetch dl.2).1 ≠ [] then acc.2 ++ [dl.1] else acc.2)

/-- Lexicographic order on code points, Python string comparison. -/
def lexLe : List Char → List Char → Bool
  | [], _ => true
  | _ :: _, [] => false
  | a :: as, b :: bs => if a = b then lexLe as bs else decide (a < b)

/-- Insertion into a sorted list of strings, for the `sorted(...)` call. -/
def insertSorted (x : String) : List String → List String
  | [] => [x]
  | y :: ys => if lexLe x.data y.data then x :: y :: ys else y :: insertSorted x ys

/-- Python `sorted`: ascending lexicographic order on code points. -/
def sortStrings (l : List String) : List String := l.foldr insertSorted []

/-- The guess loop of `main`: for each personal domain with an MX record,
one `guess_personal` row per guessed address, in sorted order. -/
def guessRows (cfg : Config) (env : RunEnv) (u fn : String)
    (doms : List String) : List Row :=
  doms.foldl (fun acc dom =>
    if env.mx dom then
      acc ++ (sortStrings (guess_emails fn dom)).map
        (fun em => mkRow cfg env u fn ("https://" ++ dom) em "guess_personal")
    else acc) []

/-- The rows `main` produces for one identity: the error placeholder on a
profile failure; otherwise the bio rows, then (when an external URL is
declared) the site rows, the deep-crawl rows over the first
`max_deep_links` candidate domains, and the guess rows for the personal
domains that pass the MX check. -/
def processIdentity (cfg : Config) (env : RunEnv) (u : String) : List Row :=
  match env.profile with
  | .error ename =>
    [⟨u, "", "", "", "error", "", "", "profile_error:" ++ ename⟩]
  | .ok p =>
    if p.external_url = "" then
      (extract_emails_from_text p.bio).map
        (fun em => mkRow cfg env u p.full_name p.external_url em "bio")
    else
      (extract_emails_from_text p.bio).map
        (fun em => mkRow cfg env u p.full_name p.external_url em "bio")
      ++ ((env.fetch p.external_url).1).map
        (fun em => mkRow cfg env u p.full_name p.external_url em "site")
      ++ (((candidateDomains env ((env.fetch p.external_url).2.1)).take
            cfg.maxDeepLinks.toNat).foldl
          (deepStep cfg env u p.full_name) ([], [])).1
      ++ guessRows cfg env u p.full_name
        ((((candidateDomains env ((env.fetch p.external_url).2.1)).take
            cfg.maxDeepLinks.toNat).foldl
          (deepStep cfg env u p.full_name) ([], [])).2)

end EmailAutomation

namespace EmailAutomation

/-! ## Lemmas for the guess-gating invariant -/

theorem candidateDomains_domainOf_aux (env : RunEnv) :
    ∀ (ls : List String) (acc : List (String × String)),
      (∀ p ∈ acc, env.domainOf p.2 = some p.1) →
      ∀ p ∈ ls.foldl (fun acc link =>
          match env.domainOf link with
          | none => acc
          | some d =>
            if is_aggregator_or_social d then acc
            else if (acc.lookup d).isSome then acc
            else acc ++ [(d, link)]) acc,
        env.domainOf p.2 = some p.1 := by
  intro ls
  induction ls with
  | nil => intro acc hacc p hp; exact hacc p hp
  | cons link ls ih =>
    intro acc hacc p hp
    rw [List.foldl_cons] at hp
    refine ih _ ?_ p hp
    intro q hq
    rcases hd : env.domainOf link with _ | d
    · simp only [hd] at hq
      exact hacc q hq
    · simp only [hd] at hq
      by_cases hagg : is_aggregator_or_social d = true
      · rw [if_pos hagg] at hq
        exact hacc q hq
      · rw [if_neg hagg] at hq
        by_cases hlk : (acc.lookup d).isSome = true
        · rw [if_pos hlk] at hq
          exact hacc q hq
        · rw [if_neg hlk] at hq
          rcases List.mem_append.mp hq with hq | hq
          · exact hacc q hq
          · rw [List.mem_singleton] at hq
            subst hq
            exact hd

theorem candidateDomains_domainOf (env : RunEnv) (links : List String) :
    ∀ p ∈ candidateDomains env links, env.domainOf p.2 = some p.1 :=
  candidateDomains_domainOf_aux env links []
    (fun p hp => absurd hp (List.not_mem_nil p))

theorem deepFold_mono (cfg : Config) (env : RunEnv) (u fn : String) :
    ∀ (cand : List (String × String)) (acc : List Row × List String),
      ∀ r ∈ acc.1, r ∈ (cand.foldl (deepStep cfg env u fn) acc).1 := by
  intro cand
  induction cand with
  | nil => intro acc r hr; exact hr
  | cons dl cand ih =>
    intro acc r hr
    rw [List.foldl_cons]
    exact ih _ r (List.mem_append_left _ hr)

theorem deepFold_rows (cfg : Config) (env : RunEnv) (u fn : String) :
    ∀ (cand : List (String × String)) (acc : List Row × List String),
      ∀ r ∈ (cand.foldl (deepStep cfg env u fn) acc).1,
        r ∈ acc.1 ∨ ∃ dl ∈ cand, ∃ em ∈ (env.fetch dl.2).1,
          r = mkRow cfg env u fn dl.2 em "site_deep" := by
  intro cand
  induction cand with
  | nil => intro acc r hr; exact Or.inl hr
  | cons dl cand ih =>
    intro acc r hr
    rw [List.foldl_cons] at hr
    rcases ih _ r hr with h | ⟨dl', hdl', em, hem, heq⟩
    · rcases List.mem_append.mp h with h' | h'
      · exact Or.inl h'
      · obtain ⟨em, hem, heq⟩ := List.mem_map.mp h'
        exact Or.inr ⟨dl, List.mem_cons_self _ _, em, hem, heq.symm⟩
    · exact Or.inr ⟨dl', List.mem_cons_of_mem _ hdl', em, hem, heq⟩

theorem deepFold_doms (cfg : Config) (env : RunEnv) (u fn : String) :
    ∀ (cand : List (String × String)) (acc : List Row × List String),
      ∀ dom ∈ (cand.foldl (deepStep cfg env u fn) acc).2,
        dom ∈ acc.2 ∨ ∃ dl ∈ cand, dl.1 = dom ∧ (env.fetch dl.2).1 ≠ [] := by
  intro cand
  induction cand with
  | nil => intro acc dom hd; exact Or.inl hd
  | cons dl cand ih =>
    intro acc dom hd
    rw [List.foldl_cons] at hd
    rcases ih _ dom hd with h | ⟨dl', hdl', hname, hne⟩
    · by_cases hf : (env.fetch dl.2).1 ≠ []
      · have h' : dom ∈ acc.2 ++ [dl.1] := by
          have hstep : (deepStep cfg env u fn acc dl).2 = acc.2 ++ [dl.1] := by
            rw [deepStep, if_pos hf]
          rw [← hstep]
          exact h
        rcases List.mem_append.mp h' with h'' | h''
        · exact Or.inl h''
        · rw [List.mem_singleton] at h''
          exact Or.inr ⟨dl, List.mem_cons_self _ _, h''.symm, hf⟩
      · have hstep : (deepStep cfg env u fn acc dl).2 = acc.2 := by
          rw [deepStep, if_neg hf]
        rw [hstep] at h
        exact Or.inl h
    · exact Or.inr ⟨dl', List.mem_cons_of_mem _ hdl', hname, hne⟩

theorem deepFold_complete (cfg : Config) (env : RunEnv) (u fn : String) :
    ∀ (cand : List (String × String)) (acc : List Row × List String)
      (dl : String × String), dl ∈ cand → ∀ em ∈ (env.fetch dl.2).1,
      mkRow cfg env u fn dl.2 em "site_deep"
        ∈ (cand.foldl (deepStep cfg env u fn) acc).1 := by
  intro cand
  induction cand with
  | nil => intro acc dl hdl; exact absurd hdl (List.not_mem_nil dl)
  | cons dl0 cand ih =>
    intro acc dl hdl em hem
    rw [List.foldl_cons]
    rcases List.mem_cons.mp hdl with rfl | hdl'
    · refine deepFold_mono cfg env u fn cand (deepStep cfg env u fn acc dl) _ ?_
      show mkRow cfg env u fn dl.2 em "site_deep" ∈
        acc.1 ++ ((env.fetch dl.2).1).map
          (fun em => mkRow cfg env u fn dl.2 em "site_deep")
      exact List.mem_append_right _ (List.mem_map.mpr ⟨em, hem, rfl⟩)
    · exact ih _ dl hdl' em hem

theorem guessRows_mem_aux (cfg : Config) (env : RunEnv) (u fn : String) :
    ∀ (doms : List String) (acc : List Row),
      ∀ r ∈ doms.foldl (fun acc dom =>
          if env.mx dom then
            acc ++ (sortStrings (guess_emails fn dom)).map
              (fun em => mkRow cfg env u fn ("https://" ++ dom) em
                "guess_personal")
          else acc) acc,
        r ∈ acc ∨ ∃ dom ∈ doms, env.mx dom = true ∧
          ∃ em, r = mkRow cfg env u fn ("https://" ++ dom) em
            "guess_personal" := by
  intro doms
  induction doms with
  | nil => intro acc r hr; exact Or.inl hr
  | cons dom doms ih =>
    intro acc r hr
    rw [List.foldl_cons] at hr
    rcases ih _ r hr with h | ⟨dom', hdom', hmx, em, heq⟩
    · by_cases hmx : env.mx dom = true
      · rw [if_pos hmx] at h
        rcases List.mem_append.mp h with h' | h'
        · exact Or.inl h'
        · obtain ⟨em, hem, heq⟩ := List.mem_map.mp h'
          exact Or.inr ⟨dom, List.mem_cons_self _ _, hmx, em, heq.symm⟩
      · rw [if_neg hmx] at h
        exact Or.inl h
    · exact Or.inr ⟨dom', List.mem_cons_of_mem _ hdom', hmx, em, heq⟩

theorem guessRows_mem (cfg : Config) (env : RunEnv) (u fn : String)
    (doms : List String) :
    ∀ r ∈ guessRows cfg env u fn doms,
      ∃ dom ∈ doms, env.mx dom = true ∧
        ∃ em, r = mkRow cfg env u fn ("https://" ++ dom) em
          "guess_personal" := by
  intro r hr
  rcases guessRows_mem_aux cfg env u fn doms [] r hr with h | h
  · exact absurd h (List.not_mem_nil r)
  · exact h

/-- C9: every `guess_personal` row of a run references a domain that passed
the MX check and for which the same run already produced a `site_deep` row
from a page of that domain. -/
theorem guess_gating :
    ∀ (cfg : Config) (env : RunEnv) (u : String) (r : Row),
      r ∈ processIdentity cfg env u → r.source = "guess_personal" →
      ∃ dom : String, r.external_url = "https://" ++ dom ∧
        env.mx dom = true ∧
        ∃ r2 ∈ processIdentity cfg env u, r2.source = "site_deep" ∧
          env.domainOf r2.external_url = some dom := by
  intro cfg env u r hr hsrc
  rcases hprof : env.profile with ename | p
  · rw [processIdentity, hprof] at hr
    rw [List.mem_singleton] at hr
    subst hr
    exact absurd (show ("error" : String) = "guess_personal" from hsrc)
      (by decide)
  · rw [processIdentity, hprof] at hr
    dsimp only at hr
    by_cases hext : p.external_url = ""
    · rw [if_pos hext] at hr
      obtain ⟨em, hem, rfl⟩ := List.mem_map.mp hr
      exact absurd (show ("bio" : String) = "guess_personal" from hsrc)
        (by decide)
    · rw [if_neg hext] at hr
      rcases List.mem_append.mp hr with hr' | hguess
      · rcases List.mem_append.mp hr' with hr'' | hdeep
        · rcases List.mem_append.mp hr'' with hbio | hsite
          · obtain ⟨em, hem, rfl⟩ := List.mem_map.mp hbio
            exact absurd (show ("bio" : String) = "guess_personal" from hsrc)
              (by decide)
          · obtain ⟨em, hem, rfl⟩ := List.mem_map.mp hsite
            exact absurd (show ("site" : String) = "guess_personal" from hsrc)
              (by decide)
        · rcases deepFold_rows cfg env u p.full_name _ _ r hdeep with
            h | ⟨dl, hdl, em, hem, rfl⟩
          · exact absurd h (List.not_mem_nil r)
          · exact absurd (show ("site_deep" : String) = "guess_personal"
              from hsrc) (by decide)
      · obtain ⟨dom, hdom, hmx, em, rfl⟩ :=
          guessRows_mem cfg env u p.full_name _ r hguess
        refine ⟨dom, rfl, hmx, ?_⟩
        rcases deepFold_doms cfg env u p.full_name _ _ dom hdom with
          h | ⟨dl, hdl, hdld, hfne⟩
        · exact absurd h (List.not_mem_nil dom)
        rcases hfe : (env.fetch dl.2).1 with _ | ⟨em2, ems⟩
        · exact absurd hfe hfne
        have hem2 : em2 ∈ (env.fetch dl.2).1 := by
          rw [hfe]
          exact List.mem_cons_self _ _
        have hrow := deepFold_complete cfg env u p.full_name _ ([], [])
          dl hdl em2 hem2
        refine ⟨mkRow cfg env u p.full_name dl.2 em2 "site_deep", ?_, rfl, ?_⟩
        · rw [processIdentity, hprof]
          dsimp only
          rw [if_neg hext]
          exact List.mem_append.mpr (Or.inl (List.mem_append.mpr
            (Or.inr hrow)))
        · have hcand : dl ∈ candidateDomains env ((env.fetch p.external_url).2.1) :=
            List.mem_of_mem_take hdl
          have := candidateDomains_domainOf env _ dl hcand
          rw [← hdld]
          exact this

end EmailAutomation

namespace EmailAutomation

/-- A concrete profile for the gating witness. -/
def demoProfile : Profile := ⟨"Jane Doe", "", "https://start.page"⟩

/-- A concrete run: the declared site links to one personal page, which
yields one address; DNS always answers. -/
def demoEnv : RunEnv where
  profile := .ok demoProfile
  fetch := fun url =>
    if url = "https://start.page" then
      ([], ["https://personal.site/about"], "ok")
    else if url = "https://personal.site/about" then
      (["info@personal.site"], [], "ok")
    else ([], [], "error:RequestException")
  domainOf := fun url =>
    if url = "https://personal.site/about" then some "personal.site"
    else none
  mx := fun _ => true
  smtp := fun _ => ("", "")

/-- Configuration of the witness run: no SMTP checks, five deep links. -/
def demoCfg : Config := ⟨false, 5⟩

/-- The guessed row the witness applies the gating theorem to. -/
def demoGuessRow : Row :=
  ⟨"jane", "Jane Doe", "https://personal.site", "jane@personal.site",
    "guess_personal", "True", "", ""⟩


end EmailAutomation

namespace EmailAutomation

/-- Witness for C9 on the concrete run. -/
theorem guess_gating_witness :
    ∃ dom : String, demoGuessRow.external_url = "https://" ++ dom ∧
      demoEnv.mx dom = true ∧
      ∃ r2 ∈ processIdentity demoCfg demoEnv "jane", r2.source = "site_deep" ∧
        demoEnv.domainOf r2.external_url = some dom :=
  guess_gating demoCfg demoEnv "jane" demoGuessRow (by decide) (by decide)

end EmailAutomation
